import Mathlib

set_option maxRecDepth 4000000
set_option maxHeartbeats 16000000
set_option exponentiation.threshold 300

/-!
A verification development for the schnorr package (pkg/schnorr/schnorr.go):
Schnorr signatures over secp256k1 with naive multi-party aggregation.

The repository's own functions (`Sign`, `Verify`, `AggregateSignatures`,
`Marshal`, `Unmarshal`, `GetBigIntBytesImmutable`, `getDeterministicK`,
`getK`, `getE`) are embedded below as executable Lean functions over `Nat`
(Go `big.Int` values are non-negative throughout this program) and
`List Nat` (byte slices).  External library functions used by the package
(`crypto/sha256`, `math/big.Jacobi`, `elliptic.MarshalCompressed`, and the
btcec secp256k1 curve operations `Add`/`ScalarBaseMult`/`ScalarMult`/
`IsOnCurve`) are modelled here by executable definitions that implement the
documented behaviour of those libraries: affine short-Weierstrass point
arithmetic on y^2 = x^3 + 7 over GF(P) with (0, 0) encoding the point at
infinity (the `crypto/elliptic` convention, tested for with `Sign() == 0`
on the raw coordinates, exactly as btcec's `Add` does), double-and-add
scalar multiplication, the FIPS 180-4 SHA-256 function, and the Jacobi
symbol (Mathlib's `jacobiSym`).
-/

namespace Schnorr

/-! ### Byte-string and modular-arithmetic utilities -/

/-- Big-endian encoding of `v` into exactly `n` bytes (truncating high bits;
all uses in this development have `v < 256 ^ n`).  Models writing a
`big.Int` into a fixed-width buffer. -/
def toBytesBE : Nat → Nat → List Nat
  | 0, _ => []
  | n + 1, v => toBytesBE n (v / 256) ++ [v % 256]

/-- Big-endian interpretation of a byte string as a number; models
`big.Int.SetBytes`. -/
def fromBytesBE (bs : List Nat) : Nat :=
  bs.foldl (fun acc b => acc * 256 + b) 0

/-- Fuel-driven square-and-multiply modular exponentiation, written with
structural recursion so that the kernel can evaluate it on 256-bit
inputs.  `powMod m fuel b e = b ^ e % m` whenever `e < 2 ^ fuel`. -/
def powMod (m : Nat) : Nat → Nat → Nat → Nat
  | 0, _, _ => 1 % m
  | fuel + 1, b, e =>
    if e = 0 then 1 % m
    else
      let r := powMod m fuel (b * b % m) (e / 2)
      if e % 2 = 1 then b * r % m else r

/-! ### SHA-256 (model of Go's `crypto/sha256`, FIPS 180-4) -/

/-- Truncation to a 32-bit word. -/
def w32 (x : Nat) : Nat := x % 4294967296

/-- Right rotation of a 32-bit word by `n` bits. -/
def rotr (n x : Nat) : Nat := (x / 2 ^ n + x % 2 ^ n * 2 ^ (32 - n)) % 4294967296

/-- Logical right shift of a 32-bit word by `n` bits. -/
def shr (n x : Nat) : Nat := x / 2 ^ n

/-- SHA-256 `Ch` function. -/
def chV (e f g : Nat) : Nat := (e &&& f) ^^^ ((e ^^^ 4294967295) &&& g)

/-- SHA-256 `Maj` function. -/
def majV (a b c : Nat) : Nat := (a &&& b) ^^^ (a &&& c) ^^^ (b &&& c)

/-- SHA-256 Σ₀. -/
def bigSigma0 (x : Nat) : Nat := rotr 2 x ^^^ rotr 13 x ^^^ rotr 22 x

/-- SHA-256 Σ₁. -/
def bigSigma1 (x : Nat) : Nat := rotr 6 x ^^^ rotr 11 x ^^^ rotr 25 x

/-- SHA-256 σ₀. -/
def smallSigma0 (x : Nat) : Nat := rotr 7 x ^^^ rotr 18 x ^^^ shr 3 x

/-- SHA-256 σ₁. -/
def smallSigma1 (x : Nat) : Nat := rotr 17 x ^^^ rotr 19 x ^^^ shr 10 x

/-- The 64 SHA-256 round constants. -/
def K64 : List Nat :=
  [1116352408, 1899447441, 3049323471, 3921009573, 961987163, 1508970993,
   2453635748, 2870763221, 3624381080, 310598401, 607225278, 1426881987,
   1925078388, 2162078206, 2614888103, 3248222580, 3835390401, 4022224774,
   264347078, 604807628, 770255983, 1249150122, 1555081692, 1996064986,
   2554220882, 2821834349, 2952996808, 3210313671, 3336571891, 3584528711,
   113926993, 338241895, 666307205, 773529912, 1294757372, 1396182291,
   1695183700, 1986661051, 2177026350, 2456956037, 2730485921, 2820302411,
   3259730800, 3345764771, 3516065817, 3600352804, 4094571909, 275423344,
   430227734, 506948616, 659060556, 883997877, 958139571, 1322822218,
   1537002063, 1747873779, 1955562222, 2024104815, 2227730452, 2361852424,
   2428436474, 2756734187, 3204031479, 3329325298]

/-- SHA-256 working state: eight 32-bit words. -/
structure Hash8 where
  a : Nat
  b : Nat
  c : Nat
  d : Nat
  e : Nat
  f : Nat
  g : Nat
  h : Nat
deriving DecidableEq, Repr

/-- SHA-256 initial hash value. -/
def initH : Hash8 :=
  ⟨1779033703, 3144134277, 1013904242, 2773480762,
   1359893119, 2600822924, 528734635, 1541459225⟩

/-- Group a byte string into big-endian 32-bit words. -/
def bytesToWords : List Nat → List Nat
  | b0 :: b1 :: b2 :: b3 :: rest =>
    (((b0 * 256 + b1) * 256 + b2) * 256 + b3) :: bytesToWords rest
  | _ => []

/-- Extend the 16 message-schedule words to 64, keeping the schedule in
reverse order in the accumulator (so `getD 1` is `W[t-2]`, `getD 6` is
`W[t-7]`, `getD 14` is `W[t-15]`, `getD 15` is `W[t-16]`). -/
def extendW : Nat → List Nat → List Nat
  | 0, acc => acc.reverse
  | fuel + 1, acc =>
    extendW fuel
      (w32 (smallSigma1 (acc.getD 1 0) + acc.getD 6 0 +
        smallSigma0 (acc.getD 14 0) + acc.getD 15 0) :: acc)

/-- One SHA-256 compression round; `kw` is the pair of round constant and
schedule word. -/
def roundStep (s : Hash8) (kw : Nat × Nat) : Hash8 :=
  let t1 := w32 (s.h + bigSigma1 s.e + chV s.e s.f s.g + kw.1 + kw.2)
  let t2 := w32 (bigSigma0 s.a + majV s.a s.b s.c)
  ⟨w32 (t1 + t2), s.a, s.b, s.c, w32 (s.d + t1), s.e, s.f, s.g⟩

/-- SHA-256 compression of one 64-byte block. -/
def compress (s : Hash8) (block : List Nat) : Hash8 :=
  let ws := extendW 48 (bytesToWords block).reverse
  let t := (K64.zip ws).foldl roundStep s
  ⟨w32 (s.a + t.a), w32 (s.b + t.b), w32 (s.c + t.c), w32 (s.d + t.d),
   w32 (s.e + t.e), w32 (s.f + t.f), w32 (s.g + t.g), w32 (s.h + t.h)⟩

/-- Process a padded message block by block (fuel-driven for structural
recursion; any fuel at least the number of blocks gives the result). -/
def processBlocks : Nat → Hash8 → List Nat → Hash8
  | 0, s, _ => s
  | fuel + 1, s, msg =>
    if msg = [] then s else processBlocks fuel (compress s (msg.take 64)) (msg.drop 64)

/-- SHA-256 padding: append `0x80`, zeros to 56 mod 64, then the bit length
as 8 big-endian bytes. -/
def padMsg (msg : List Nat) : List Nat :=
  msg ++ 128 :: List.replicate ((119 - msg.length % 64) % 64) 0 ++
    toBytesBE 8 (8 * msg.length)

/-- The SHA-256 digest (32 bytes) of a byte string. -/
def sha256 (msg : List Nat) : List Nat :=
  let padded := padMsg msg
  let s := processBlocks (padded.length / 64 + 1) initH padded
  toBytesBE 4 s.a ++ toBytesBE 4 s.b ++ toBytesBE 4 s.c ++ toBytesBE 4 s.d ++
    toBytesBE 4 s.e ++ toBytesBE 4 s.f ++ toBytesBE 4 s.g ++ toBytesBE 4 s.h

/-! ### secp256k1 curve model (btcec `S256()`) -/

/-- The secp256k1 field prime (`Curve.P`). -/
def P : Nat := 115792089237316195423570985008687907853269984665640564039457584007908834671663

/-- The secp256k1 group order (`Curve.N`). -/
def N : Nat := 115792089237316195423570985008687907852837564279074904382605163141518161494337

/-- x-coordinate of the secp256k1 base point. -/
def Gx : Nat := 55066263022277343669578718895168534326250603453777594175500187360389116729240

/-- y-coordinate of the secp256k1 base point. -/
def Gy : Nat := 32670510020758816978083085130507043184471273380659243275938904335757337482424

/-- Modular inverse in GF(P) by Fermat's little theorem (executable). -/
def pinv (a : Nat) : Nat := powMod P 257 a (P - 2)

/-- Affine point addition on secp256k1 with `(0, 0)` encoding the point at
infinity, which is recognised on the raw (unreduced) coordinates exactly as
btcec's `Add` recognises it via `Sign() == 0`; all field arithmetic is
mod `P`.  Models `Curve.Add`. -/
def padd (A B : Nat × Nat) : Nat × Nat :=
  if A.1 = 0 ∧ A.2 = 0 then B
  else if B.1 = 0 ∧ B.2 = 0 then A
  else if A.1 % P = B.1 % P then
    if (A.2 + B.2) % P = 0 then (0, 0)
    else
      let l := 3 * A.1 * A.1 % P * pinv (2 * A.2 % P) % P
      let x3 := (l * l % P + (P - A.1 % P) + (P - B.1 % P)) % P
      (x3, (l * ((A.1 % P + (P - x3)) % P) % P + (P - A.2 % P)) % P)
  else
    let l := (B.2 % P + (P - A.2 % P)) % P * pinv ((B.1 % P + (P - A.1 % P)) % P) % P
    let x3 := (l * l % P + (P - A.1 % P) + (P - B.1 % P)) % P
    (x3, (l * ((A.1 % P + (P - x3)) % P) % P + (P - A.2 % P)) % P)

/-- Fuel-driven double-and-add loop for scalar multiplication. -/
def smulAux : Nat → Nat → Nat × Nat → Nat × Nat → Nat × Nat
  | 0, _, _, acc => acc
  | fuel + 1, k, A, acc =>
    if k = 0 then acc
    else smulAux fuel (k / 2) (padd A A) (if k % 2 = 1 then padd acc A else acc)

/-- Scalar multiplication `k • A` on secp256k1 (with `(0, 0)` as identity). -/
def smul (k : Nat) (A : Nat × Nat) : Nat × Nat := smulAux 257 k A (0, 0)

/-- Model of `Curve.ScalarBaseMult`: multiplies the base point by the
big-endian scalar `k`. -/
def ScalarBaseMult (k : List Nat) : Nat × Nat := smul (fromBytesBE k) (Gx, Gy)

/-- Model of `Curve.ScalarMult`. -/
def ScalarMult (Bx By : Nat) (k : List Nat) : Nat × Nat := smul (fromBytesBE k) (Bx, By)

/-- Model of btcec's `IsOnCurve`: checks `y² = x³ + 7` over GF(P) (btcec
reduces the coordinates into the field before the check). -/
def IsOnCurve (x y : Nat) : Bool := y * y % P == (x * x * x + 7) % P

/-- Model of `math/big.Jacobi` (the Jacobi symbol); only ever applied with
the odd prime `P` as modulus in this program. -/
def jacobi (x y : Nat) : ℤ := jacobiSym (x : ℤ) y

/-! ### The schnorr package itself (pkg/schnorr/schnorr.go) -/

/-- `GetBigIntBytesImmutable`: 32-byte big-endian, zero-padded encoding;
returns `nil` (the empty slice) when the value needs more than 32 bytes,
i.e. when `i ≥ 2^256`. -/
def GetBigIntBytesImmutable (i : Nat) : List Nat :=
  if 2 ^ 256 ≤ i then [] else toBytesBE 32 i

/-- The unified error taxonomy of the package (the Go code returns
distinct `fmt.Errorf` messages; the spec names them as below). -/
inductive SchnorrError where
  | InvalidKeyRangeError
  | ZeroNonceError
  | EmptyKeySetError
  | PointDecodeError
  | NotOnCurveError
  | RangeError
  | ZeroPointError
  | JacobiMismatchError
  | RValueMismatchError
deriving DecidableEq, Repr

/-- `getDeterministicK`: `k0 = SHA-256(d ‖ message) mod N`, failing (with
"k0 is zero") when the result is zero. -/
def getDeterministicK (d : List Nat) (message : List Nat) : Option Nat :=
  let k0 := fromBytesBE (sha256 (d ++ message)) % N
  if k0 = 0 then none else some k0

/-- `getK`: parity correction of the nonce by the Jacobi symbol of the
nonce point's y-coordinate. -/
def getK (Ry k : Nat) : Nat := if jacobi Ry P = 1 then k else N - k

/-- Model of the standard library's `elliptic.MarshalCompressed` (used by
`getE`): prefix `02`/`03` by the parity of `y`, then 32 big-endian bytes
of `x`. -/
def MarshalCompressed (x y : Nat) : List Nat := (2 + y % 2) :: toBytesBE 32 x

/-- `getE`: the challenge `e = SHA-256(rX ‖ compress(Px, Py) ‖ m) mod N`. -/
def getE (Px Py : Nat) (rX : List Nat) (m : List Nat) : Nat :=
  fromBytesBE (sha256 (rX ++ MarshalCompressed Px Py ++ m)) % N

/-- The package's own `Marshal` (SEC 1 compressed form; `byteLen = 32`
for secp256k1): `ret[0] = 2 + y.Bit(0)`, then 32 big-endian bytes of
`x`.  Produces the same bytes as `elliptic.MarshalCompressed`. -/
def Marshal (x y : Nat) : List Nat := (2 + y % 2) :: toBytesBE 32 x

/-- Outcome of the package's `Unmarshal`: Go either panics (index out of
range on empty input), returns `nil` coordinates (decode failure), or
returns a point. -/
inductive UnmarshalResult where
  | panic : UnmarshalResult
  | fail : UnmarshalResult
  | ok (x y : Nat) : UnmarshalResult
deriving DecidableEq, Repr

/-- The package's `Unmarshal`.  Faithful to the Go source order: it reads
`data[0]` first (panicking on an empty slice), then checks the prefix
(`data[0] &^ 1 != 2`), then the length (`len(data) != 33`), then recovers
`y` by the `(P+1)/4` square-root exponentiation, rejecting when the
candidate fails `y0² ≡ x³ + 7`, and finally fixes the parity. -/
def Unmarshal (data : List Nat) : UnmarshalResult :=
  match data with
  | [] => .panic
  | b0 :: rest =>
    if b0 &&& 254 ≠ 2 then .fail
    else if rest.length + 1 ≠ 33 then .fail
    else
      let x0 := fromBytesBE (rest.take 32)
      let ySq := (x0 ^ 3 % P + 7) % P
      let y0 := powMod P 257 ySq ((P + 1 - (P + 1) % 4) / 4)
      if y0 ^ 2 % P ≠ ySq then .fail
      else .ok x0 (if y0 % 2 ≠ b0 % 2 then P - y0 else y0)

/-- `Sign`. -/
def Sign (privatekey : Nat) (message : List Nat) : Except SchnorrError (List Nat) :=
  if privatekey < 1 ∨ N - 1 < privatekey then .error .InvalidKeyRangeError
  else
    let d := GetBigIntBytesImmutable privatekey
    match getDeterministicK d message with
    | none => .error .ZeroNonceError
    | some k0 =>
      let R := ScalarBaseMult (GetBigIntBytesImmutable k0)
      let k := getK R.2 k0
      let Pub := ScalarBaseMult d
      let rxBytes := GetBigIntBytesImmutable R.1
      let e := getE Pub.1 Pub.2 rxBytes message
      .ok (rxBytes ++ GetBigIntBytesImmutable ((k + e * privatekey) % N))

/-- `Verify`.  The `.panic` case of `Unmarshal` cannot arise here because
the public key is a 33-byte array in Go; it is mapped to the same error as
a `nil` decode result. -/
def Verify (publickey message signature : List Nat) : Except SchnorrError Unit :=
  match Unmarshal publickey with
  | .ok px py =>
    if !IsOnCurve px py then .error .NotOnCurveError
    else
      let r := fromBytesBE (signature.take 32)
      if P ≤ r then .error .RangeError
      else
        let s := fromBytesBE (signature.drop 32)
        if N ≤ s then .error .RangeError
        else
          let e := getE px py (GetBigIntBytesImmutable r) message
          let sg := ScalarBaseMult (GetBigIntBytesImmutable s)
          let ep := ScalarMult px py (GetBigIntBytesImmutable e)
          let R2 := padd sg (ep.1, P - ep.2)
          if R2.1 = 0 ∧ R2.2 = 0 then .error .ZeroPointError
          else if jacobi R2.2 P ≠ 1 then .error .JacobiMismatchError
          else if R2.1 ≠ r then .error .RValueMismatchError
          else .ok ()
  | _ => .error .PointDecodeError

/-- The first loop of `AggregateSignatures`: range-checks each key,
derives its nonce, and accumulates the nonce points and public points;
returns the list of nonces `k0s` together with the aggregate `R` and the
aggregate public point. -/
def aggLoop (message : List Nat) :
    List Nat → Nat × Nat → Nat × Nat →
    Except SchnorrError (List Nat × (Nat × Nat) × (Nat × Nat))
  | [], R, Pacc => .ok ([], R, Pacc)
  | privatekey :: rest, R, Pacc =>
    if privatekey < 1 ∨ N - 1 < privatekey then .error .InvalidKeyRangeError
    else
      let d := GetBigIntBytesImmutable privatekey
      match getDeterministicK d message with
      | none => .error .ZeroNonceError
      | some k0i =>
        let Ri := ScalarBaseMult (GetBigIntBytesImmutable k0i)
        let Pi := ScalarBaseMult d
        match aggLoop message rest (padd R Ri) (padd Pacc Pi) with
        | .error err => .error err
        | .ok (k0s, R2, P2) => .ok (k0i :: k0s, R2, P2)

/-- `AggregateSignatures`. -/
def AggregateSignatures (privatekeys : List Nat) (message : List Nat) :
    Except SchnorrError (List Nat) :=
  if privatekeys = [] then .error .EmptyKeySetError
  else
    match aggLoop message privatekeys (0, 0) (0, 0) with
    | .error err => .error err
    | .ok (k0s, R, Pagg) =>
      let newRx := GetBigIntBytesImmutable R.1
      let e := getE Pagg.1 Pagg.2 newRx message
      let s := (k0s.zip privatekeys).foldl
        (fun acc kd => acc + (getK R.2 kd.1 + e * kd.2)) 0
      .ok (newRx ++ GetBigIntBytesImmutable (s % N))

/-! ### Correctness of `powMod` -/

theorem powMod_eq (m : ℕ) : ∀ fuel b e : ℕ, e < 2 ^ fuel → powMod m fuel b e = b ^ e % m := by
  intro fuel
  induction fuel with
  | zero =>
    intro b e he
    have h0 : e = 0 := Nat.lt_one_iff.mp (by simpa using he)
    simp [powMod, h0]
  | succ f ih =>
    intro b e he
    by_cases h0 : e = 0
    · simp [powMod, h0]
    · have hpow : (2 : ℕ) ^ (f + 1) = 2 * 2 ^ f := by rw [pow_succ]; ring
      have h2 : e / 2 < 2 ^ f := by omega
      have hsq : (b * b % m) ^ (e / 2) % m = b ^ (2 * (e / 2)) % m := by
        rw [← Nat.pow_mod, ← pow_two b, ← pow_mul]
      rw [powMod, if_neg h0, ih (b * b % m) (e / 2) h2]
      rcases Nat.mod_two_eq_zero_or_one e with h1 | h1
      · rw [if_neg (by omega), hsq, show 2 * (e / 2) = e from by omega]
      · rw [if_pos h1, hsq]
        have hmod : b * (b ^ (2 * (e / 2)) % m) % m = b * b ^ (2 * (e / 2)) % m :=
          Nat.ModEq.mul_left b (Nat.mod_modEq (b ^ (2 * (e / 2))) m)
        rw [hmod, ← pow_succ', show 2 * (e / 2) + 1 = e from by omega]

theorem powMod_lt (m : ℕ) (hm : 0 < m) : ∀ fuel b e : ℕ, powMod m fuel b e < m := by
  intro fuel
  induction fuel with
  | zero => intro b e; exact Nat.mod_lt _ hm
  | succ f ih =>
    intro b e
    rw [powMod]
    by_cases h0 : e = 0
    · rw [if_pos h0]; exact Nat.mod_lt _ hm
    · rw [if_neg h0]
      rcases Nat.mod_two_eq_zero_or_one e with h1 | h1
      · rw [if_neg (by omega)]; exact ih _ _
      · rw [if_pos h1]; exact Nat.mod_lt _ hm

theorem powMod_cast (n b e : ℕ) (he : e < 2 ^ 257) :
    ((powMod n 257 b e : ℕ) : ZMod n) = ((b : ℕ) : ZMod n) ^ e := by
  rw [powMod_eq n 257 b e he, ZMod.natCast_mod, Nat.cast_pow]

theorem powMod_eq_one (n b e : ℕ) (he : e < 2 ^ 257) (h : powMod n 257 b e = 1) :
    ((b : ℕ) : ZMod n) ^ e = 1 := by
  rw [← powMod_cast n b e he, h, Nat.cast_one]

theorem powMod_ne_one (n b e : ℕ) (hn : 1 < n) (he : e < 2 ^ 257)
    (h : powMod n 257 b e ≠ 1) : ((b : ℕ) : ZMod n) ^ e ≠ 1 := by
  intro hc
  apply h
  have h1 : ((powMod n 257 b e : ℕ) : ZMod n) = ((1 : ℕ) : ZMod n) := by
    rw [powMod_cast n b e he, hc, Nat.cast_one]
  have h2 := congrArg ZMod.val h1
  rwa [ZMod.val_cast_of_lt (powMod_lt n (by omega) 257 b e),
    ZMod.val_cast_of_lt hn] at h2

/-- Peeling helper: a prime dividing another prime equals it. -/
theorem prime_eq_of_dvd {q p : ℕ} (hq : q.Prime) (hp : p.Prime) (h : q ∣ p) : q = p :=
  (Nat.prime_dvd_prime_iff_eq hq hp).mp h

/-- Peeling helper: a prime dividing a prime power equals the base. -/
theorem prime_eq_of_dvd_pow {q p k : ℕ} (hq : q.Prime) (hp : p.Prime) (h : q ∣ p ^ k) :
    q = p :=
  (Nat.prime_dvd_prime_iff_eq hq hp).mp (hq.dvd_of_dvd_pow h)

/-! ### Primality of the secp256k1 field prime, by Pratt/Lucas certificates -/

theorem prime_971 : Nat.Prime 971 := by norm_num

theorem prime_1373 : Nat.Prime 1373 := by norm_num

theorem prime_1627 : Nat.Prime 1627 := by norm_num

theorem prime_2621 : Nat.Prime 2621 := by norm_num

theorem prime_2657 : Nat.Prime 2657 := by norm_num

theorem prime_4423 : Nat.Prime 4423 := by norm_num

theorem prime_5323 : Nat.Prime 5323 := by norm_num

theorem prime_7723 : Nat.Prime 7723 := by norm_num

theorem prime_13441 : Nat.Prime 13441 := by norm_num

theorem prime_20113 : Nat.Prime 20113 := by norm_num

theorem prime_24809 : Nat.Prime 24809 := by norm_num

theorem prime_41201 : Nat.Prime 41201 := by norm_num

theorem prime_96557 : Nat.Prime 96557 := by norm_num

theorem prime_13331831 : Nat.Prime 13331831 := by
  apply lucas_primality _ ((13 : ℕ) : ZMod 13331831)
  · exact powMod_eq_one _ 13 _ (by decide) (by decide)
  · intro q hq hdvd
    have heq : (13331831 : ℕ) - 1 = 2 * (5 * (971 * (1373))) := by decide
    rw [heq] at hdvd
    rcases hq.dvd_mul.mp hdvd with h | hdvd
    · rw [prime_eq_of_dvd hq (by norm_num) h]
      exact powMod_ne_one _ 13 _ (by decide) (by decide) (by decide)
    rcases hq.dvd_mul.mp hdvd with h | hdvd
    · rw [prime_eq_of_dvd hq (by norm_num) h]
      exact powMod_ne_one _ 13 _ (by decide) (by decide) (by decide)
    rcases hq.dvd_mul.mp hdvd with h | hdvd
    · rw [prime_eq_of_dvd hq prime_971 h]
      exact powMod_ne_one _ 13 _ (by decide) (by decide) (by decide)
    · rw [prime_eq_of_dvd hq prime_1373 hdvd]
      exact powMod_ne_one _ 13 _ (by decide) (by decide) (by decide)

theorem prime_1206781 : Nat.Prime 1206781 := by
  apply lucas_primality _ ((10 : ℕ) : ZMod 1206781)
  · exact powMod_eq_one _ 10 _ (by decide) (by decide)
  · intro q hq hdvd
    have heq : (1206781 : ℕ) - 1 = 2 ^ 2 * (3 * (5 * (20113))) := by decide
    rw [heq] at hdvd
    rcases hq.dvd_mul.mp hdvd with h | hdvd
    · rw [prime_eq_of_dvd_pow hq (by norm_num) h]
      exact powMod_ne_one _ 10 _ (by decide) (by decide) (by decide)
    rcases hq.dvd_mul.mp hdvd with h | hdvd
    · rw [prime_eq_of_dvd hq (by norm_num) h]
      exact powMod_ne_one _ 10 _ (by decide) (by decide) (by decide)
    rcases hq.dvd_mul.mp hdvd with h | hdvd
    · rw [prime_eq_of_dvd hq (by norm_num) h]
      exact powMod_ne_one _ 10 _ (by decide) (by decide) (by decide)
    · rw [prime_eq_of_dvd hq prime_20113 hdvd]
      exact powMod_ne_one _ 10 _ (by decide) (by decide) (by decide)

theorem prime_7240687 : Nat.Prime 7240687 := by
  apply lucas_primality _ ((3 : ℕ) : ZMod 7240687)
  · exact powMod_eq_one _ 3 _ (by decide) (by decide)
  · intro q hq hdvd
    have heq : (7240687 : ℕ) - 1 = 2 * (3 * (1206781)) := by decide
    rw [heq] at hdvd
    rcases hq.dvd_mul.mp hdvd with h | hdvd
    · rw [prime_eq_of_dvd hq (by norm_num) h]
      exact powMod_ne_one _ 3 _ (by decide) (by decide) (by decide)
    rcases hq.dvd_mul.mp hdvd with h | hdvd
    · rw [prime_eq_of_dvd hq (by norm_num) h]
      exact powMod_ne_one _ 3 _ (by decide) (by decide) (by decide)
    · rw [prime_eq_of_dvd hq prime_1206781 hdvd]
      exact powMod_ne_one _ 3 _ (by decide) (by decide) (by decide)

theorem prime_107590001 : Nat.Prime 107590001 := by
  apply lucas_primality _ ((3 : ℕ) : ZMod 107590001)
  · exact powMod_eq_one _ 3 _ (by decide) (by decide)
  · intro q hq hdvd
    have heq : (107590001 : ℕ) - 1 = 2 ^ 4 * (5 ^ 4 * (7 * (29 * (53)))) := by decide
    rw [heq] at hdvd
    rcases hq.dvd_mul.mp hdvd with h | hdvd
    · rw [prime_eq_of_dvd_pow hq (by norm_num) h]
      exact powMod_ne_one _ 3 _ (by decide) (by decide) (by decide)
    rcases hq.dvd_mul.mp hdvd with h | hdvd
    · rw [prime_eq_of_dvd_pow hq (by norm_num) h]
      exact powMod_ne_one _ 3 _ (by decide) (by decide) (by decide)
    rcases hq.dvd_mul.mp hdvd with h | hdvd
    · rw [prime_eq_of_dvd hq (by norm_num) h]
      exact powMod_ne_one _ 3 _ (by decide) (by decide) (by decide)
    rcases hq.dvd_mul.mp hdvd with h | hdvd
    · rw [prime_eq_of_dvd hq (by norm_num) h]
      exact powMod_ne_one _ 3 _ (by decide) (by decide) (by decide)
    · rw [prime_eq_of_dvd hq (by norm_num) hdvd]
      exact powMod_ne_one _ 3 _ (by decide) (by decide) (by decide)

theorem prime_173378833005251801 : Nat.Prime 173378833005251801 := by
  apply lucas_primality _ ((6 : ℕ) : ZMod 173378833005251801)
  · exact powMod_eq_one _ 6 _ (by decide) (by decide)
  · intro q hq hdvd
    have heq : (173378833005251801 : ℕ) - 1 = 2 ^ 3 * (5 ^ 2 * (2621 * (24809 * (13331831)))) := by decide
    rw [heq] at hdvd
    rcases hq.dvd_mul.mp hdvd with h | hdvd
    · rw [prime_eq_of_dvd_pow hq (by norm_num) h]
      exact powMod_ne_one _ 6 _ (by decide) (by decide) (by decide)
    rcases hq.dvd_mul.mp hdvd with h | hdvd
    · rw [prime_eq_of_dvd_pow hq (by norm_num) h]
      exact powMod_ne_one _ 6 _ (by decide) (by decide) (by decide)
    rcases hq.dvd_mul.mp hdvd with h | hdvd
    · rw [prime_eq_of_dvd hq prime_2621 h]
      exact powMod_ne_one _ 6 _ (by decide) (by decide) (by decide)
    rcases hq.dvd_mul.mp hdvd with h | hdvd
    · rw [prime_eq_of_dvd hq prime_24809 h]
      exact powMod_ne_one _ 6 _ (by decide) (by decide) (by decide)
    · rw [prime_eq_of_dvd hq prime_13331831 hdvd]
      exact powMod_ne_one _ 6 _ (by decide) (by decide) (by decide)

theorem prime_22149492674086928081353 : Nat.Prime 22149492674086928081353 := by
  apply lucas_primality _ ((5 : ℕ) : ZMod 22149492674086928081353)
  · exact powMod_eq_one _ 5 _ (by decide) (by decide)
  · intro q hq hdvd
    have heq : (22149492674086928081353 : ℕ) - 1 = 2 ^ 3 * (3 * (5323 * (173378833005251801))) := by decide
    rw [heq] at hdvd
    rcases hq.dvd_mul.mp hdvd with h | hdvd
    · rw [prime_eq_of_dvd_pow hq (by norm_num) h]
      exact powMod_ne_one _ 5 _ (by decide) (by decide) (by decide)
    rcases hq.dvd_mul.mp hdvd with h | hdvd
    · rw [prime_eq_of_dvd hq (by norm_num) h]
      exact powMod_ne_one _ 5 _ (by decide) (by decide) (by decide)
    rcases hq.dvd_mul.mp hdvd with h | hdvd
    · rw [prime_eq_of_dvd hq prime_5323 h]
      exact powMod_ne_one _ 5 _ (by decide) (by decide) (by decide)
    · rw [prime_eq_of_dvd hq prime_173378833005251801 hdvd]
      exact powMod_ne_one _ 5 _ (by decide) (by decide) (by decide)

theorem prime_132896956044521568488119 : Nat.Prime 132896956044521568488119 := by
  apply lucas_primality _ ((6 : ℕ) : ZMod 132896956044521568488119)
  · exact powMod_eq_one _ 6 _ (by decide) (by decide)
  · intro q hq hdvd
    have heq : (132896956044521568488119 : ℕ) - 1 = 2 * (3 * (22149492674086928081353)) := by decide
    rw [heq] at hdvd
    rcases hq.dvd_mul.mp hdvd with h | hdvd
    · rw [prime_eq_of_dvd hq (by norm_num) h]
      exact powMod_ne_one _ 6 _ (by decide) (by decide) (by decide)
    rcases hq.dvd_mul.mp hdvd with h | hdvd
    · rw [prime_eq_of_dvd hq (by norm_num) h]
      exact powMod_ne_one _ 6 _ (by decide) (by decide) (by decide)
    · rw [prime_eq_of_dvd hq prime_22149492674086928081353 hdvd]
      exact powMod_ne_one _ 6 _ (by decide) (by decide) (by decide)

theorem prime_255515944373312847190720520512484175977 : Nat.Prime 255515944373312847190720520512484175977 := by
  apply lucas_primality _ ((3 : ℕ) : ZMod 255515944373312847190720520512484175977)
  · exact powMod_eq_one _ 3 _ (by decide) (by decide)
  · intro q hq hdvd
    have heq : (255515944373312847190720520512484175977 : ℕ) - 1 = 2 ^ 3 * (7 ^ 2 * (11 * (1627 * (2657 * (4423 * (41201 * (96557 * (7240687 * (107590001))))))))) := by decide
    rw [heq] at hdvd
    rcases hq.dvd_mul.mp hdvd with h | hdvd
    · rw [prime_eq_of_dvd_pow hq (by norm_num) h]
      exact powMod_ne_one _ 3 _ (by decide) (by decide) (by decide)
    rcases hq.dvd_mul.mp hdvd with h | hdvd
    · rw [prime_eq_of_dvd_pow hq (by norm_num) h]
      exact powMod_ne_one _ 3 _ (by decide) (by decide) (by decide)
    rcases hq.dvd_mul.mp hdvd with h | hdvd
    · rw [prime_eq_of_dvd hq (by norm_num) h]
      exact powMod_ne_one _ 3 _ (by decide) (by decide) (by decide)
    rcases hq.dvd_mul.mp hdvd with h | hdvd
    · rw [prime_eq_of_dvd hq prime_1627 h]
      exact powMod_ne_one _ 3 _ (by decide) (by decide) (by decide)
    rcases hq.dvd_mul.mp hdvd with h | hdvd
    · rw [prime_eq_of_dvd hq prime_2657 h]
      exact powMod_ne_one _ 3 _ (by decide) (by decide) (by decide)
    rcases hq.dvd_mul.mp hdvd with h | hdvd
    · rw [prime_eq_of_dvd hq prime_4423 h]
      exact powMod_ne_one _ 3 _ (by decide) (by decide) (by decide)
    rcases hq.dvd_mul.mp hdvd with h | hdvd
    · rw [prime_eq_of_dvd hq prime_41201 h]
      exact powMod_ne_one _ 3 _ (by decide) (by decide) (by decide)
    rcases hq.dvd_mul.mp hdvd with h | hdvd
    · rw [prime_eq_of_dvd hq prime_96557 h]
      exact powMod_ne_one _ 3 _ (by decide) (by decide) (by decide)
    rcases hq.dvd_mul.mp hdvd with h | hdvd
    · rw [prime_eq_of_dvd hq prime_7240687 h]
      exact powMod_ne_one _ 3 _ (by decide) (by decide) (by decide)
    · rw [prime_eq_of_dvd hq prime_107590001 hdvd]
      exact powMod_ne_one _ 3 _ (by decide) (by decide) (by decide)

theorem prime_205115282021455665897114700593932402728804164701536103180137503955397371 : Nat.Prime 205115282021455665897114700593932402728804164701536103180137503955397371 := by
  apply lucas_primality _ ((10 : ℕ) : ZMod 205115282021455665897114700593932402728804164701536103180137503955397371)
  · exact powMod_eq_one _ 10 _ (by decide) (by decide)
  · intro q hq hdvd
    have heq : (205115282021455665897114700593932402728804164701536103180137503955397371 : ℕ) - 1 = 2 * (3 * (5 * (29 ^ 2 * (31 * (7723 * (132896956044521568488119 * (255515944373312847190720520512484175977))))))) := by decide
    rw [heq] at hdvd
    rcases hq.dvd_mul.mp hdvd with h | hdvd
    · rw [prime_eq_of_dvd hq (by norm_num) h]
      exact powMod_ne_one _ 10 _ (by decide) (by decide) (by decide)
    rcases hq.dvd_mul.mp hdvd with h | hdvd
    · rw [prime_eq_of_dvd hq (by norm_num) h]
      exact powMod_ne_one _ 10 _ (by decide) (by decide) (by decide)
    rcases hq.dvd_mul.mp hdvd with h | hdvd
    · rw [prime_eq_of_dvd hq (by norm_num) h]
      exact powMod_ne_one _ 10 _ (by decide) (by decide) (by decide)
    rcases hq.dvd_mul.mp hdvd with h | hdvd
    · rw [prime_eq_of_dvd_pow hq (by norm_num) h]
      exact powMod_ne_one _ 10 _ (by decide) (by decide) (by decide)
    rcases hq.dvd_mul.mp hdvd with h | hdvd
    · rw [prime_eq_of_dvd hq (by norm_num) h]
      exact powMod_ne_one _ 10 _ (by decide) (by decide) (by decide)
    rcases hq.dvd_mul.mp hdvd with h | hdvd
    · rw [prime_eq_of_dvd hq prime_7723 h]
      exact powMod_ne_one _ 10 _ (by decide) (by decide) (by decide)
    rcases hq.dvd_mul.mp hdvd with h | hdvd
    · rw [prime_eq_of_dvd hq prime_132896956044521568488119 h]
      exact powMod_ne_one _ 10 _ (by decide) (by decide) (by decide)
    · rw [prime_eq_of_dvd hq prime_255515944373312847190720520512484175977 hdvd]
      exact powMod_ne_one _ 10 _ (by decide) (by decide) (by decide)

theorem prime_P : Nat.Prime P := by
  apply lucas_primality _ ((3 : ℕ) : ZMod P)
  · exact powMod_eq_one _ 3 _ (by decide) (by decide)
  · intro q hq hdvd
    have heq : P - 1 = 2 * (3 * (7 * (13441 * (205115282021455665897114700593932402728804164701536103180137503955397371)))) := by decide
    rw [heq] at hdvd
    rcases hq.dvd_mul.mp hdvd with h | hdvd
    · rw [prime_eq_of_dvd hq (by norm_num) h]
      exact powMod_ne_one _ 3 _ (by decide) (by decide) (by decide)
    rcases hq.dvd_mul.mp hdvd with h | hdvd
    · rw [prime_eq_of_dvd hq (by norm_num) h]
      exact powMod_ne_one _ 3 _ (by decide) (by decide) (by decide)
    rcases hq.dvd_mul.mp hdvd with h | hdvd
    · rw [prime_eq_of_dvd hq (by norm_num) h]
      exact powMod_ne_one _ 3 _ (by decide) (by decide) (by decide)
    rcases hq.dvd_mul.mp hdvd with h | hdvd
    · rw [prime_eq_of_dvd hq prime_13441 h]
      exact powMod_ne_one _ 3 _ (by decide) (by decide) (by decide)
    · rw [prime_eq_of_dvd hq prime_205115282021455665897114700593932402728804164701536103180137503955397371 hdvd]
      exact powMod_ne_one _ 3 _ (by decide) (by decide) (by decide)

instance factPrimeP : Fact (Nat.Prime P) := ⟨prime_P⟩

/-! ### Byte-codec lemmas -/

theorem toBytesBE_length : ∀ n v : ℕ, (toBytesBE n v).length = n := by
  intro n
  induction n with
  | zero => intro v; rfl
  | succ m ih => intro v; simp [toBytesBE, ih]

theorem toBytesBE_foldl (f : ℕ → ℕ → ℕ) (hf : ∀ a b, f a b = a * 256 + b) :
    ∀ n v acc : ℕ, (toBytesBE n v).foldl f acc = acc * 256 ^ n + v % 256 ^ n := by
  intro n
  induction n with
  | zero => intro v acc; simp [toBytesBE, Nat.mod_one]
  | succ m ih =>
    intro v acc
    rw [toBytesBE, List.foldl_append, ih (v / 256) acc]
    simp only [List.foldl_cons, List.foldl_nil, hf]
    have hmul : v % 256 ^ (m + 1) = v % 256 + 256 * (v / 256 % 256 ^ m) := by
      rw [pow_succ, mul_comm (256 ^ m) 256, Nat.mod_mul]
    rw [hmul, pow_succ]
    ring

theorem fromBytesBE_toBytesBE (n v : ℕ) : fromBytesBE (toBytesBE n v) = v % 256 ^ n := by
  rw [fromBytesBE, toBytesBE_foldl _ (fun a b => rfl) n v 0]
  simp

theorem fromBytesBE_toBytesBE_of_lt {n v : ℕ} (h : v < 256 ^ n) :
    fromBytesBE (toBytesBE n v) = v := by
  rw [fromBytesBE_toBytesBE, Nat.mod_eq_of_lt h]

theorem pow256_32 : (256 : ℕ) ^ 32 = 2 ^ 256 := by norm_num

theorem GetBigIntBytesImmutable_eq {v : ℕ} (h : v < 2 ^ 256) :
    GetBigIntBytesImmutable v = toBytesBE 32 v := if_neg (by omega)

theorem fromBytesBE_GetBig {v : ℕ} (h : v < 2 ^ 256) :
    fromBytesBE (GetBigIntBytesImmutable v) = v := by
  rw [GetBigIntBytesImmutable_eq h, fromBytesBE_toBytesBE_of_lt (by rw [pow256_32]; exact h)]

theorem ScalarBaseMult_GetBig {v : ℕ} (h : v < 2 ^ 256) :
    ScalarBaseMult (GetBigIntBytesImmutable v) = smul v (Gx, Gy) := by
  rw [ScalarBaseMult, fromBytesBE_GetBig h]

theorem ScalarMult_GetBig (Bx By : ℕ) {v : ℕ} (h : v < 2 ^ 256) :
    ScalarMult Bx By (GetBigIntBytesImmutable v) = smul v (Bx, By) := by
  rw [ScalarMult, fromBytesBE_GetBig h]

/-! ### Range invariants for curve points -/

/-- Both coordinates reduced mod `P`. -/
def Reduced (A : ℕ × ℕ) : Prop := A.1 < P ∧ A.2 < P

theorem P_pos : 0 < P := by decide

theorem N_pos : 0 < N := by decide

theorem N_lt_2pow256 : N < 2 ^ 256 := by decide

theorem P_lt_2pow256 : P < 2 ^ 256 := by decide

theorem reduced_zero : Reduced (0, 0) := ⟨P_pos, P_pos⟩

theorem reduced_G : Reduced (Gx, Gy) := ⟨by decide, by decide⟩

theorem padd_reduced {A B : ℕ × ℕ} (hA : Reduced A) (hB : Reduced B) :
    Reduced (padd A B) := by
  rw [padd]
  split_ifs
  · exact hB
  · exact hA
  · exact reduced_zero
  · exact ⟨Nat.mod_lt _ P_pos, Nat.mod_lt _ P_pos⟩
  · exact ⟨Nat.mod_lt _ P_pos, Nat.mod_lt _ P_pos⟩

theorem smulAux_reduced :
    ∀ (fuel k : ℕ) (A acc : ℕ × ℕ), Reduced A → Reduced acc →
      Reduced (smulAux fuel k A acc) := by
  intro fuel
  induction fuel with
  | zero => intro k A acc _ hacc; exact hacc
  | succ f ih =>
    intro k A acc hA hacc
    rw [smulAux]
    by_cases h0 : k = 0
    · rw [if_pos h0]; exact hacc
    · rw [if_neg h0]
      apply ih _ _ _ (padd_reduced hA hA)
      by_cases h1 : k % 2 = 1
      · rw [if_pos h1]; exact padd_reduced hacc hA
      · rw [if_neg h1]; exact hacc

theorem smul_reduced (k : ℕ) {A : ℕ × ℕ} (hA : Reduced A) : Reduced (smul k A) :=
  smulAux_reduced 257 k A (0, 0) hA reduced_zero

theorem padd_zero_left (B : ℕ × ℕ) : padd (0, 0) B = B := by
  rw [padd]
  exact if_pos ⟨rfl, rfl⟩

/-! ### Claim theorems -/

/-- C9: for every 32-byte message `m`, `AggregateSignatures` applied to the
empty sequence of private keys fails with `EmptyKeySetError` and produces
no signature. -/
theorem C9_aggregate_empty (message : List Nat) :
    AggregateSignatures [] message = .error .EmptyKeySetError := rfl

/-- C5 (code bug evidence): `Unmarshal` panics on the empty byte string
(it reads `data[0]` before checking the length), instead of failing with
`PointDecodeError` as the spec claims; on non-empty inputs of wrong length
or with an unrecognized prefix it does return the graceful failure value. -/
theorem C5_unmarshal_empty_panics :
    Unmarshal [] = .panic ∧ Unmarshal [2, 0] = .fail ∧
      Unmarshal (4 :: List.replicate 32 0) = .fail := by
  refine ⟨rfl, by decide, by decide⟩

/-- C6: `Sign` fails with `InvalidKeyRangeError` for `d = 0` and `d = N`,
and in general returns `InvalidKeyRangeError` exactly when the private key
lies outside `[1, N-1]`. -/
theorem C6_sign_key_range :
    (∀ m : List Nat, Sign 0 m = .error .InvalidKeyRangeError) ∧
    (∀ m : List Nat, Sign N m = .error .InvalidKeyRangeError) ∧
    ∀ (d : Nat) (m : List Nat),
      Sign d m = .error .InvalidKeyRangeError ↔ ¬(1 ≤ d ∧ d ≤ N - 1) := by
  have hN : 1 ≤ N := by decide
  have key : ∀ (d : Nat) (m : List Nat),
      Sign d m = .error .InvalidKeyRangeError ↔ ¬(1 ≤ d ∧ d ≤ N - 1) := by
    intro d m
    by_cases h : d < 1 ∨ N - 1 < d
    · rw [Sign, if_pos h]
      exact ⟨fun _ => by omega, fun _ => rfl⟩
    · rw [Sign, if_neg h]
      constructor
      · intro hc
        exfalso
        cases hk : getDeterministicK (GetBigIntBytesImmutable d) m with
        | none => simp [hk] at hc
        | some k0 => simp [hk] at hc
      · intro hc
        exact absurd (by omega) hc
  exact ⟨fun m => (key 0 m).mpr (by omega), fun m => (key N m).mpr (by omega), key⟩

theorem getDeterministicK_some {dB m : List Nat} {k0 : ℕ}
    (h : getDeterministicK dB m = some k0) :
    k0 = fromBytesBE (sha256 (dB ++ m)) % N := by
  rw [getDeterministicK] at h
  split_ifs at h
  exact (Option.some.inj h).symm

/-- The property claimed of `Sign`'s output (spec formula, C2): when
`Sign d m` succeeds, the 64-byte signature is `Rx` (32 bytes, big-endian,
zero-padded) followed by `s = (k + e*d) mod N`, where
`k0 = H(d ‖ m) mod N`, `(Rx, Ry) = k0*G`, `k = k0` if
`jacobiSymbol(Ry, P) = 1` and `k = N - k0` otherwise, and
`e = H(Rx ‖ compress(d*G) ‖ m) mod N`. -/
def SignMatchesSpec (d : ℕ) (m : List Nat) : Prop :=
  match Sign d m with
  | .error _ => True
  | .ok sig =>
    let k0 := fromBytesBE (sha256 (toBytesBE 32 d ++ m)) % N
    let R := smul k0 (Gx, Gy)
    let k := if jacobi R.2 P = 1 then k0 else N - k0
    let Pub := smul d (Gx, Gy)
    let e := fromBytesBE
      (sha256 (toBytesBE 32 R.1 ++ MarshalCompressed Pub.1 Pub.2 ++ m)) % N
    sig = toBytesBE 32 R.1 ++ toBytesBE 32 ((k + e * d) % N)

/-- C2: for every in-range private key and message on which `Sign`
succeeds, the signature equals the spec formula. -/
theorem C2_sign_formula (d : ℕ) (m : List Nat) (hd : 1 ≤ d ∧ d ≤ N - 1) :
    SignMatchesSpec d m := by
  have hd2 : d < 2 ^ 256 := lt_of_le_of_lt hd.2 (by decide)
  have hrange : ¬(d < 1 ∨ N - 1 < d) := by omega
  have hGd : GetBigIntBytesImmutable d = toBytesBE 32 d := GetBigIntBytesImmutable_eq hd2
  rw [SignMatchesSpec, Sign, if_neg hrange]
  cases hk : getDeterministicK (GetBigIntBytesImmutable d) m with
  | none => simp [hk]
  | some k0 =>
    have hk' : getDeterministicK (toBytesBE 32 d) m = some k0 := by rw [← hGd]; exact hk
    have hk0v : k0 = fromBytesBE (sha256 (toBytesBE 32 d ++ m)) % N :=
      getDeterministicK_some hk'
    have hk0N : k0 < 2 ^ 256 := by
      rw [hk0v]; exact lt_trans (Nat.mod_lt _ N_pos) N_lt_2pow256
    have hRred : Reduced (smul k0 (Gx, Gy)) := smul_reduced k0 reduced_G
    have hSB : ScalarBaseMult (toBytesBE 32 d) = smul d (Gx, Gy) := by
      rw [ScalarBaseMult, fromBytesBE_toBytesBE_of_lt (by rw [pow256_32]; exact hd2)]
    simp only [hGd]
    simp only [hk']
    rw [← hk0v, ScalarBaseMult_GetBig hk0N, hSB,
      GetBigIntBytesImmutable_eq (lt_trans hRred.1 P_lt_2pow256),
      GetBigIntBytesImmutable_eq (lt_trans (Nat.mod_lt _ N_pos) N_lt_2pow256)]
    simp only [getK, getE]

/-- Witness for C2 at `d = 1`, `m` the 32-byte zero message. -/
theorem C2_sign_formula_witness : SignMatchesSpec 1 (List.replicate 32 0) :=
  C2_sign_formula 1 (List.replicate 32 0) (by decide)

theorem foldl_padd_reduced :
    ∀ (l : List (ℕ × ℕ)) (acc : ℕ × ℕ), (∀ A ∈ l, Reduced A) → Reduced acc →
      Reduced (l.foldl padd acc) := by
  intro l
  induction l with
  | nil => intro acc _ hacc; exact hacc
  | cons A rest ih =>
    intro acc h hacc
    rw [List.foldl_cons]
    exact ih _ (fun B hB => h B (List.mem_cons_of_mem _ hB))
      (padd_reduced hacc (h A (List.mem_cons_self A rest)))

theorem map_zip_self {α β : Type} (f : α → β) :
    ∀ l : List α, (l.map f).zip l = l.map fun a => (f a, a) := by
  intro l
  induction l with
  | nil => rfl
  | cons x rest ih => simp [ih]

theorem foldl_add_eq_sum {α : Type} (f : α → ℕ) :
    ∀ (l : List α) (acc : ℕ), l.foldl (fun a x => a + f x) acc = acc + (l.map f).sum := by
  intro l
  induction l with
  | nil => intro acc; simp
  | cons x rest ih =>
    intro acc
    rw [List.foldl_cons, ih, List.map_cons, List.sum_cons]
    ring

/-- Characterization of the first loop of `AggregateSignatures`. -/
theorem aggLoop_ok {m : List Nat} :
    ∀ (pks : List ℕ) (R0 P0 : ℕ × ℕ) {k0s : List ℕ} {R Pagg : ℕ × ℕ},
      aggLoop m pks R0 P0 = .ok (k0s, R, Pagg) →
      (∀ d ∈ pks, 1 ≤ d ∧ d ≤ N - 1) ∧
      k0s = pks.map (fun d => fromBytesBE (sha256 (toBytesBE 32 d ++ m)) % N) ∧
      R = (pks.map
        (fun d => smul (fromBytesBE (sha256 (toBytesBE 32 d ++ m)) % N) (Gx, Gy))).foldl
          padd R0 ∧
      Pagg = (pks.map (fun d => smul d (Gx, Gy))).foldl padd P0 := by
  intro pks
  induction pks with
  | nil =>
    intro R0 P0 k0s R Pagg h
    simp only [aggLoop, Except.ok.injEq, Prod.mk.injEq] at h
    obtain ⟨h1, h2, h3⟩ := h
    simp [← h1, ← h2, ← h3]
  | cons d rest ih =>
    intro R0 P0 k0s R Pagg h
    rw [aggLoop] at h
    by_cases hr : d < 1 ∨ N - 1 < d
    · rw [if_pos hr] at h; exact absurd h (by simp)
    · rw [if_neg hr] at h
      have hd2 : d < 2 ^ 256 := by
        have hN2 : N - 1 < 2 ^ 256 := by decide
        omega
      have hGd : GetBigIntBytesImmutable d = toBytesBE 32 d := GetBigIntBytesImmutable_eq hd2
      cases hk : getDeterministicK (GetBigIntBytesImmutable d) m with
      | none => simp only [hk] at h; exact absurd h (by simp)
      | some k0 =>
        simp only [hk] at h
        cases hrec : aggLoop m rest (padd R0 (ScalarBaseMult (GetBigIntBytesImmutable k0)))
            (padd P0 (ScalarBaseMult (GetBigIntBytesImmutable d))) with
        | error err => rw [hrec] at h; exact absurd h (by simp)
        | ok trip =>
          obtain ⟨k0s', R', P'⟩ := trip
          rw [hrec] at h
          simp only [Except.ok.injEq, Prod.mk.injEq] at h
          obtain ⟨h1, h2, h3⟩ := h
          obtain ⟨hall, hk0s, hR, hP⟩ := ih _ _ hrec
          have hk0v : k0 = fromBytesBE (sha256 (toBytesBE 32 d ++ m)) % N := by
            rw [getDeterministicK_some hk, hGd]
          have hk0N : k0 < 2 ^ 256 := by
            rw [hk0v]; exact lt_trans (Nat.mod_lt _ N_pos) N_lt_2pow256
          refine ⟨?_, ?_, ?_, ?_⟩
          · intro d' hd'
            rcases List.mem_cons.mp hd' with hd' | hd'
            · subst hd'; omega
            · exact hall d' hd'
          · rw [← h1, hk0s, List.map_cons, hk0v]
          · rw [← h2, hR, List.map_cons, List.foldl_cons, ScalarBaseMult_GetBig hk0N, hk0v]
          · rw [← h3, hP, List.map_cons, List.foldl_cons, hGd, ScalarBaseMult,
              fromBytesBE_toBytesBE_of_lt (by rw [pow256_32]; exact hd2)]

/-- The property claimed of `AggregateSignatures` (C8): on success, every
participant's nonce is parity-corrected using the Jacobi symbol of the
y-coordinate of the aggregate nonce point `R` (not the participant's own
`R_i`), the challenge `e` is computed once from the aggregate `R` and the
aggregate public key, and the output is
`Rx ‖ (Σ (k_i + e*d_i)) mod N`. -/
def AggregateMatchesSpec (pks : List ℕ) (m : List Nat) : Prop :=
  match AggregateSignatures pks m with
  | .error _ => True
  | .ok sig =>
    let k0f := fun d => fromBytesBE (sha256 (toBytesBE 32 d ++ m)) % N
    let R := (pks.map (fun d => smul (k0f d) (Gx, Gy))).foldl padd (0, 0)
    let Pagg := (pks.map (fun d => smul d (Gx, Gy))).foldl padd (0, 0)
    let e := fromBytesBE
      (sha256 (toBytesBE 32 R.1 ++ MarshalCompressed Pagg.1 Pagg.2 ++ m)) % N
    let s := (pks.map
      (fun d => (if jacobi R.2 P = 1 then k0f d else N - k0f d) + e * d)).sum % N
    sig = toBytesBE 32 R.1 ++ toBytesBE 32 s

/-- C8: the aggregate signature always matches the spec formula (with the
parity correction of every participant's nonce driven by the aggregate
nonce point). -/
theorem C8_aggregate_formula (pks : List ℕ) (m : List Nat) :
    AggregateMatchesSpec pks m := by
  rw [AggregateMatchesSpec]
  cases hA : AggregateSignatures pks m with
  | error err => exact trivial
  | ok sig =>
    rw [AggregateSignatures] at hA
    by_cases hnil : pks = []
    · rw [if_pos hnil] at hA; exact absurd hA (by simp)
    · rw [if_neg hnil] at hA
      cases hL : aggLoop m pks (0, 0) (0, 0) with
      | error err => rw [hL] at hA; exact absurd hA (by simp)
      | ok trip =>
        obtain ⟨k0s, R, Pagg⟩ := trip
        rw [hL] at hA
        simp only [Except.ok.injEq] at hA
        obtain ⟨hall, hk0s, hR, hP⟩ := aggLoop_ok pks (0, 0) (0, 0) hL
        have hRred : Reduced R := by
          rw [hR]
          exact foldl_padd_reduced _ _
            (by
              intro A hA2
              obtain ⟨d, _, hd⟩ := List.mem_map.mp hA2
              rw [← hd]
              exact smul_reduced _ reduced_G)
            reduced_zero
        simp only [← hA]
        rw [GetBigIntBytesImmutable_eq (lt_trans hRred.1 P_lt_2pow256),
          GetBigIntBytesImmutable_eq (lt_trans (Nat.mod_lt _ N_pos) N_lt_2pow256)]
        rw [hk0s, map_zip_self, foldl_add_eq_sum, List.map_map]
        simp only [Function.comp_def, getK, getE, ← hR, ← hP, Nat.zero_add, zero_add]

/-- The property claimed of `Verify` (C7): for a public key that decodes
to an on-curve point, with `r`/`s` the two halves of the signature,
`e = H(r ‖ compress(Px,Py) ‖ m) mod N` and `(Rx, Ry) = s*G + e*(-(Px,Py))`
as the code computes them, `Verify` returns true exactly when `r < P`,
`s < N`, `(Rx, Ry) ≠ (0, 0)`, `jacobiSymbol(Ry, P) = 1` and `Rx = r`, and
each failing condition is reported with the corresponding error. -/
def VerifyMatchesSpec (publickey message signature : List Nat) : Prop :=
  match Unmarshal publickey with
  | .ok px py =>
    if IsOnCurve px py then
      let r := fromBytesBE (signature.take 32)
      let s := fromBytesBE (signature.drop 32)
      let e := fromBytesBE
        (sha256 (toBytesBE 32 r ++ MarshalCompressed px py ++ message)) % N
      let R2 := padd (smul s (Gx, Gy)) ((smul e (px, py)).1, P - (smul e (px, py)).2)
      (Verify publickey message signature = .ok () ↔
        r < P ∧ s < N ∧ ¬(R2.1 = 0 ∧ R2.2 = 0) ∧ jacobi R2.2 P = 1 ∧ R2.1 = r) ∧
      (Verify publickey message signature = .error .RangeError ↔ P ≤ r ∨ N ≤ s) ∧
      (Verify publickey message signature = .error .ZeroPointError ↔
        r < P ∧ s < N ∧ R2.1 = 0 ∧ R2.2 = 0) ∧
      (Verify publickey message signature = .error .JacobiMismatchError ↔
        r < P ∧ s < N ∧ ¬(R2.1 = 0 ∧ R2.2 = 0) ∧ jacobi R2.2 P ≠ 1) ∧
      (Verify publickey message signature = .error .RValueMismatchError ↔
        r < P ∧ s < N ∧ ¬(R2.1 = 0 ∧ R2.2 = 0) ∧ jacobi R2.2 P = 1 ∧ R2.1 ≠ r)
    else True
  | _ => True

/-- C7: the `Verify` routine returns true exactly under the five checks of
the spec, and reports each failing check with its corresponding reason. -/
theorem C7_verify_characterization (publickey message signature : List Nat)
    (hm : message.length = 32) (hs : signature.length = 64) :
    VerifyMatchesSpec publickey message signature := by
  rw [VerifyMatchesSpec]
  cases hU : Unmarshal publickey with
  | panic => exact trivial
  | fail => exact trivial
  | ok px py =>
    simp only []
    by_cases hcurve : IsOnCurve px py
    · rw [if_pos hcurve]
      rw [Verify, hU]
      simp only [hcurve, Bool.not_true, Bool.false_eq_true, if_false]
      by_cases h1 : P ≤ fromBytesBE (signature.take 32)
      · rw [if_pos h1]
        exact ⟨iff_of_false (by simp) (fun h => absurd h.1 (by omega)),
          iff_of_true rfl (Or.inl h1),
          iff_of_false (by simp) (fun h => absurd h.1 (by omega)),
          iff_of_false (by simp) (fun h => absurd h.1 (by omega)),
          iff_of_false (by simp) (fun h => absurd h.1 (by omega))⟩
      · rw [if_neg h1]
        have h1' : fromBytesBE (signature.take 32) < P := by omega
        by_cases h2 : N ≤ fromBytesBE (signature.drop 32)
        · rw [if_pos h2]
          exact ⟨iff_of_false (by simp) (fun h => absurd h.2.1 (by omega)),
            iff_of_true rfl (Or.inr h2),
            iff_of_false (by simp) (fun h => absurd h.2.1 (by omega)),
            iff_of_false (by simp) (fun h => absurd h.2.1 (by omega)),
            iff_of_false (by simp) (fun h => absurd h.2.1 (by omega))⟩
        · rw [if_neg h2]
          have h2' : fromBytesBE (signature.drop 32) < N := by omega
          rw [GetBigIntBytesImmutable_eq (lt_trans h1' P_lt_2pow256), getE,
            ScalarBaseMult_GetBig (lt_trans h2' N_lt_2pow256),
            ScalarMult_GetBig px py (lt_trans (Nat.mod_lt _ N_pos) N_lt_2pow256)]
          split_ifs with h3 h4 h5
          · exact ⟨iff_of_false (by simp) (fun h => h.2.2.1 h3),
              iff_of_false (by simp) (fun h => h.elim h1 h2),
              iff_of_true rfl ⟨h1', h2', h3.1, h3.2⟩,
              iff_of_false (by simp) (fun h => h.2.2.1 h3),
              iff_of_false (by simp) (fun h => h.2.2.1 h3)⟩
          · exact ⟨iff_of_false (by simp) (fun h => h4 h.2.2.2.1),
              iff_of_false (by simp) (fun h => h.elim h1 h2),
              iff_of_false (by simp) (fun h => h3 ⟨h.2.2.1, h.2.2.2⟩),
              iff_of_true rfl ⟨h1', h2', h3, h4⟩,
              iff_of_false (by simp) (fun h => h4 h.2.2.2.1)⟩
          · rw [not_not] at h4
            exact ⟨iff_of_false (by simp) (fun h => h5 h.2.2.2.2),
              iff_of_false (by simp) (fun h => h.elim h1 h2),
              iff_of_false (by simp) (fun h => h3 ⟨h.2.2.1, h.2.2.2⟩),
              iff_of_false (by simp) (fun h => h.2.2.2 h4),
              iff_of_true rfl ⟨h1', h2', h3, h4, h5⟩⟩
          · rw [not_not] at h4 h5
            exact ⟨iff_of_true rfl ⟨h1', h2', h3, h4, h5⟩,
              iff_of_false (by simp) (fun h => h.elim h1 h2),
              iff_of_false (by simp) (fun h => h3 ⟨h.2.2.1, h.2.2.2⟩),
              iff_of_false (by simp) (fun h => h.2.2.2 h4),
              iff_of_false (by simp) (fun h => h.2.2.2.2 h5)⟩
    · rw [if_neg hcurve]
      exact trivial

/-- Witness for C7 at the base-point public key, zero message and zero
signature. -/
theorem C7_verify_characterization_witness :
    VerifyMatchesSpec (Marshal Gx Gy) (List.replicate 32 0) (List.replicate 64 0) :=
  C7_verify_characterization _ _ _ (by simp) (by simp)

instance neZeroP : NeZero P := ⟨by decide⟩

theorem val_inj_of_lt {a b : ℕ} (ha : a < P) (hb : b < P)
    (h : ((a : ℕ) : ZMod P) = ((b : ℕ) : ZMod P)) : a = b := by
  have h2 := congrArg ZMod.val h
  rwa [ZMod.val_cast_of_lt ha, ZMod.val_cast_of_lt hb] at h2

theorem P_odd : P % 2 = 1 := by decide

/-- The `(P+1)/4` exponentiation of `Unmarshal` recovers a square root of
`x³ + 7` whenever one exists: if `(x, y)` is on the curve then the
candidate passes the `y0² ≡ ySq` check and equals `y` or `P - y`.  The
exponent is abstracted as `E` with `4*E = P+1`. -/
theorem unmarshal_sqrt (E x y : ℕ) (hE4 : 4 * E = P + 1) (hEbound : E < 2 ^ 257)
    (hEpos : 0 < E) (hy : y < P) (hcv : y * y % P = (x * x * x + 7) % P) :
    powMod P 257 ((x ^ 3 % P + 7) % P) E ^ 2 % P = (x ^ 3 % P + 7) % P ∧
    (powMod P 257 ((x ^ 3 % P + 7) % P) E = y ∨
     powMod P 257 ((x ^ 3 % P + 7) % P) E = P - y) := by
  have hP1 : 1 ≤ P := P_pos
  have hySq_y : (x ^ 3 % P + 7) % P = y * y % P := by
    rw [Nat.mod_add_mod, show x ^ 3 = x * x * x from by ring, ← hcv]
  have hySq_lt : (x ^ 3 % P + 7) % P < P := Nat.mod_lt _ P_pos
  have hy0_eq : powMod P 257 ((x ^ 3 % P + 7) % P) E
      = ((x ^ 3 % P + 7) % P) ^ E % P := powMod_eq P 257 _ _ hEbound
  have hy0_lt : powMod P 257 ((x ^ 3 % P + 7) % P) E < P := powMod_lt P P_pos 257 _ _
  have hcast : ((powMod P 257 ((x ^ 3 % P + 7) % P) E : ℕ) : ZMod P)
      = (((y : ℕ) : ZMod P) * ((y : ℕ) : ZMod P)) ^ E := by
    rw [hy0_eq, ZMod.natCast_mod, Nat.cast_pow, hySq_y, ZMod.natCast_mod, Nat.cast_mul]
  by_cases ht : ((y : ℕ) : ZMod P) = 0
  · have hy0' : y = 0 :=
      Nat.eq_zero_of_dvd_of_lt ((ZMod.natCast_zmod_eq_zero_iff_dvd y P).mp ht) hy
    have hySq0 : (x ^ 3 % P + 7) % P = 0 := by
      rw [hySq_y, hy0']
      simp
    have hcand : powMod P 257 ((x ^ 3 % P + 7) % P) E = 0 := by
      rw [hy0_eq, hySq0, Nat.zero_pow hEpos, Nat.zero_mod]
    rw [hcand, hySq0, hy0']
    exact ⟨by simp, Or.inl rfl⟩
  · have hfermat : ((y : ℕ) : ZMod P) ^ (P - 1) = 1 := ZMod.pow_card_sub_one_eq_one ht
    have hsq : ((powMod P 257 ((x ^ 3 % P + 7) % P) E : ℕ) : ZMod P) ^ 2
        = ((y : ℕ) : ZMod P) ^ 2 := by
      rw [hcast,
        ← pow_mul (((y : ℕ) : ZMod P) * ((y : ℕ) : ZMod P)) E 2,
        ← pow_two ((y : ℕ) : ZMod P),
        ← pow_mul ((y : ℕ) : ZMod P) 2 (E * 2),
        show 2 * (E * 2) = 2 + (P - 1) from by omega,
        pow_add, hfermat, mul_one]
    refine ⟨?_, ?_⟩
    · refine val_inj_of_lt (Nat.mod_lt _ P_pos) hySq_lt ?_
      rw [ZMod.natCast_mod, Nat.cast_pow, hsq, hySq_y, ZMod.natCast_mod, Nat.cast_mul, sq]
    · have hroot : ((powMod P 257 ((x ^ 3 % P + 7) % P) E : ℕ) : ZMod P)
          = ((y : ℕ) : ZMod P) ∨
          ((powMod P 257 ((x ^ 3 % P + 7) % P) E : ℕ) : ZMod P)
          = -((y : ℕ) : ZMod P) := by
        have h0 : (((powMod P 257 ((x ^ 3 % P + 7) % P) E : ℕ) : ZMod P)
            - ((y : ℕ) : ZMod P)) *
            (((powMod P 257 ((x ^ 3 % P + 7) % P) E : ℕ) : ZMod P)
            + ((y : ℕ) : ZMod P)) = 0 := by
          linear_combination hsq
        rcases mul_eq_zero.mp h0 with h | h
        · exact Or.inl (sub_eq_zero.mp h)
        · exact Or.inr (eq_neg_of_add_eq_zero_left h)
      have hyne : y ≠ 0 := fun h => ht (by rw [h, Nat.cast_zero])
      rcases hroot with h | h
      · exact Or.inl (val_inj_of_lt hy0_lt hy h)
      · refine Or.inr (val_inj_of_lt hy0_lt (by omega) ?_)
        rw [h]
        have hPy : ((P - y : ℕ) : ZMod P) = -((y : ℕ) : ZMod P) := by
          rw [Nat.cast_sub (le_of_lt hy), ZMod.natCast_self]
          ring
        rw [hPy]

/-- Shared codec-roundtrip helper: `Unmarshal (Marshal x y)` recovers a
reduced on-curve point exactly. -/
theorem unmarshal_roundtrip (x y : ℕ) (hx : x < P) (hy : y < P)
    (hcurve : IsOnCurve x y = true) :
    Unmarshal (Marshal x y) = .ok x y := by
  have hcv : y * y % P = (x * x * x + 7) % P := by
    rw [IsOnCurve] at hcurve
    exact beq_iff_eq.mp hcurve
  have hb0 : (2 + y % 2) &&& 254 = 2 := by
    rcases Nat.mod_two_eq_zero_or_one y with h | h <;> rw [h] <;> decide
  have hlen : (toBytesBE 32 x).length = 32 := toBytesBE_length 32 x
  have hx0 : fromBytesBE ((toBytesBE 32 x).take 32) = x := by
    rw [List.take_of_length_le (by omega)]
    exact fromBytesBE_toBytesBE_of_lt (by rw [pow256_32]; exact lt_trans hx P_lt_2pow256)
  have hy2 : y % 2 < 2 := Nat.mod_lt _ (by omega)
  obtain ⟨hcheck, hcases⟩ := unmarshal_sqrt ((P + 1 - (P + 1) % 4) / 4) x y
    (by decide) (by decide) (by decide) hy hcv
  have hy0lt : powMod P 257 ((x ^ 3 % P + 7) % P) ((P + 1 - (P + 1) % 4) / 4) < P :=
    powMod_lt P P_pos 257 _ _
  rw [Marshal]
  simp only [Unmarshal, hx0]
  rw [if_neg (not_not_intro hb0), if_neg (by omega : ¬((toBytesBE 32 x).length + 1 ≠ 33)),
    if_neg (not_not_intro hcheck)]
  rcases hcases with hc | hc
  · rw [hc, if_neg (by omega : ¬(y % 2 ≠ (2 + y % 2) % 2))]
  · have hP2 : P % 2 = 1 := P_odd
    have hypos : 0 < y := by
      rcases Nat.eq_zero_or_pos y with h0 | h0
      · rw [h0, Nat.sub_zero] at hc
        omega
      · exact h0
    rw [hc, if_pos (by omega : (P - y) % 2 ≠ (2 + y % 2) % 2),
      show P - (P - y) = y from by omega]

/-- C4: the compressed point codec round-trips: for every reduced point
`(x, y)` on the secp256k1 curve, `Unmarshal (Marshal x y)` succeeds and
returns exactly `(x, y)`. -/
theorem C4_unmarshal_marshal (x y : ℕ) (hx : x < P) (hy : y < P)
    (hcurve : IsOnCurve x y = true) :
    Unmarshal (Marshal x y) = .ok x y :=
  unmarshal_roundtrip x y hx hy hcurve

/-- Witness for C4 at the secp256k1 base point. -/
theorem C4_unmarshal_marshal_witness : Unmarshal (Marshal Gx Gy) = .ok Gx Gy :=
  C4_unmarshal_marshal Gx Gy (by decide) (by decide) (by decide)

/-- C3 (code bug evidence): for the in-range private keys `d1 = 1` and
`d2 = N - 1` and the 32-byte zero message, `AggregateSignatures` succeeds,
but the aggregate public key `1*G + (N-1)*G` is the point at infinity
(encoded `(0, 0)`), whose 33-byte compressed encoding `02 ‖ 00…00` fails
to decode (`x = 0` is not on the curve, as `7` is not a quadratic residue
mod `P`), so the single-signer `Verify` rejects every signature with a
decode error instead of verifying successfully. -/
theorem C3_aggregate_identity_pubkey_fails :
    (AggregateSignatures [1, N - 1] (List.replicate 32 0)).isOk = true ∧
    ∀ sig : List Nat,
      Verify (Marshal (padd (smul 1 (Gx, Gy)) (smul (N - 1) (Gx, Gy))).1
          (padd (smul 1 (Gx, Gy)) (smul (N - 1) (Gx, Gy))).2)
        (List.replicate 32 0) sig = .error .PointDecodeError := by
  constructor
  · decide
  · intro sig
    have hpagg : padd (smul 1 (Gx, Gy)) (smul (N - 1) (Gx, Gy)) = (0, 0) := by decide
    have hU : Unmarshal (Marshal 0 0) = .fail := by decide
    rw [hpagg]
    simp [Verify, hU]

/-- C10: aggregation of a single private key coincides with single-signer
signing: `AggregateSignatures [d] m = Sign d m`, both on successes and on
errors. -/
theorem C10_aggregate_singleton (d : Nat) (m : List Nat) :
    AggregateSignatures [d] m = Sign d m := by
  rw [AggregateSignatures, Sign, if_neg (by simp : ¬([d] : List Nat) = [])]
  by_cases h : d < 1 ∨ N - 1 < d
  · rw [aggLoop, if_pos h, if_pos h]
  · rw [aggLoop, if_neg h, if_neg h]
    cases hk : getDeterministicK (GetBigIntBytesImmutable d) m with
    | none => simp [hk]
    | some k0 =>
      simp only [hk, aggLoop, padd_zero_left, List.zip_cons_cons, List.zip_nil_right,
        List.foldl_cons, List.foldl_nil, Nat.zero_add, zero_add]

/-! ### The group-order prime N, by Pratt/Lucas certificates -/

theorem prime_4681609 : Nat.Prime 4681609 := by
  apply lucas_primality _ ((23 : ℕ) : ZMod 4681609)
  · exact powMod_eq_one _ 23 _ (by decide) (by decide)
  · intro q hq hdvd
    have heq : (4681609 : ℕ) - 1 = 2 ^ 3 * (3 * (97 * (2011))) := by decide
    rw [heq] at hdvd
    rcases hq.dvd_mul.mp hdvd with h | hdvd
    · rw [prime_eq_of_dvd_pow hq (by norm_num) h]
      exact powMod_ne_one _ 23 _ (by decide) (by decide) (by decide)
    rcases hq.dvd_mul.mp hdvd with h | hdvd
    · rw [prime_eq_of_dvd hq (by norm_num) h]
      exact powMod_ne_one _ 23 _ (by decide) (by decide) (by decide)
    rcases hq.dvd_mul.mp hdvd with h | hdvd
    · rw [prime_eq_of_dvd hq (by norm_num) h]
      exact powMod_ne_one _ 23 _ (by decide) (by decide) (by decide)
    · rw [prime_eq_of_dvd hq (by norm_num) hdvd]
      exact powMod_ne_one _ 23 _ (by decide) (by decide) (by decide)

theorem prime_107361793816595537 : Nat.Prime 107361793816595537 := by
  apply lucas_primality _ ((3 : ℕ) : ZMod 107361793816595537)
  · exact powMod_eq_one _ 3 _ (by decide) (by decide)
  · intro q hq hdvd
    have heq : (107361793816595537 : ℕ) - 1 = 2 ^ 4 * (16699 * (85831 * (4681609))) := by decide
    rw [heq] at hdvd
    rcases hq.dvd_mul.mp hdvd with h | hdvd
    · rw [prime_eq_of_dvd_pow hq (by norm_num) h]
      exact powMod_ne_one _ 3 _ (by decide) (by decide) (by decide)
    rcases hq.dvd_mul.mp hdvd with h | hdvd
    · rw [prime_eq_of_dvd hq (by norm_num) h]
      exact powMod_ne_one _ 3 _ (by decide) (by decide) (by decide)
    rcases hq.dvd_mul.mp hdvd with h | hdvd
    · rw [prime_eq_of_dvd hq (by norm_num) h]
      exact powMod_ne_one _ 3 _ (by decide) (by decide) (by decide)
    · rw [prime_eq_of_dvd hq prime_4681609 hdvd]
      exact powMod_ne_one _ 3 _ (by decide) (by decide) (by decide)

theorem prime_44706919 : Nat.Prime 44706919 := by
  apply lucas_primality _ ((6 : ℕ) : ZMod 44706919)
  · exact powMod_eq_one _ 6 _ (by decide) (by decide)
  · intro q hq hdvd
    have heq : (44706919 : ℕ) - 1 = 2 * (3 * (797 * (9349))) := by decide
    rw [heq] at hdvd
    rcases hq.dvd_mul.mp hdvd with h | hdvd
    · rw [prime_eq_of_dvd hq (by norm_num) h]
      exact powMod_ne_one _ 6 _ (by decide) (by decide) (by decide)
    rcases hq.dvd_mul.mp hdvd with h | hdvd
    · rw [prime_eq_of_dvd hq (by norm_num) h]
      exact powMod_ne_one _ 6 _ (by decide) (by decide) (by decide)
    rcases hq.dvd_mul.mp hdvd with h | hdvd
    · rw [prime_eq_of_dvd hq (by norm_num) h]
      exact powMod_ne_one _ 6 _ (by decide) (by decide) (by decide)
    · rw [prime_eq_of_dvd hq (by norm_num) hdvd]
      exact powMod_ne_one _ 6 _ (by decide) (by decide) (by decide)

theorem prime_174723607534414371449 : Nat.Prime 174723607534414371449 := by
  apply lucas_primality _ ((3 : ℕ) : ZMod 174723607534414371449)
  · exact powMod_eq_one _ 3 _ (by decide) (by decide)
  · intro q hq hdvd
    have heq : (174723607534414371449 : ℕ) - 1 = 2 ^ 3 * (17 * (59 * (4051 * (120233 * (44706919))))) := by decide
    rw [heq] at hdvd
    rcases hq.dvd_mul.mp hdvd with h | hdvd
    · rw [prime_eq_of_dvd_pow hq (by norm_num) h]
      exact powMod_ne_one _ 3 _ (by decide) (by decide) (by decide)
    rcases hq.dvd_mul.mp hdvd with h | hdvd
    · rw [prime_eq_of_dvd hq (by norm_num) h]
      exact powMod_ne_one _ 3 _ (by decide) (by decide) (by decide)
    rcases hq.dvd_mul.mp hdvd with h | hdvd
    · rw [prime_eq_of_dvd hq (by norm_num) h]
      exact powMod_ne_one _ 3 _ (by decide) (by decide) (by decide)
    rcases hq.dvd_mul.mp hdvd with h | hdvd
    · rw [prime_eq_of_dvd hq (by norm_num) h]
      exact powMod_ne_one _ 3 _ (by decide) (by decide) (by decide)
    rcases hq.dvd_mul.mp hdvd with h | hdvd
    · rw [prime_eq_of_dvd hq (by norm_num) h]
      exact powMod_ne_one _ 3 _ (by decide) (by decide) (by decide)
    · rw [prime_eq_of_dvd hq prime_44706919 hdvd]
      exact powMod_ne_one _ 3 _ (by decide) (by decide) (by decide)

theorem prime_1627771 : Nat.Prime 1627771 := by
  apply lucas_primality _ ((3 : ℕ) : ZMod 1627771)
  · exact powMod_eq_one _ 3 _ (by decide) (by decide)
  · intro q hq hdvd
    have heq : (1627771 : ℕ) - 1 = 2 * (3 * (5 * (29 * (1871)))) := by decide
    rw [heq] at hdvd
    rcases hq.dvd_mul.mp hdvd with h | hdvd
    · rw [prime_eq_of_dvd hq (by norm_num) h]
      exact powMod_ne_one _ 3 _ (by decide) (by decide) (by decide)
    rcases hq.dvd_mul.mp hdvd with h | hdvd
    · rw [prime_eq_of_dvd hq (by norm_num) h]
      exact powMod_ne_one _ 3 _ (by decide) (by decide) (by decide)
    rcases hq.dvd_mul.mp hdvd with h | hdvd
    · rw [prime_eq_of_dvd hq (by norm_num) h]
      exact powMod_ne_one _ 3 _ (by decide) (by decide) (by decide)
    rcases hq.dvd_mul.mp hdvd with h | hdvd
    · rw [prime_eq_of_dvd hq (by norm_num) h]
      exact powMod_ne_one _ 3 _ (by decide) (by decide) (by decide)
    · rw [prime_eq_of_dvd hq (by norm_num) hdvd]
      exact powMod_ne_one _ 3 _ (by decide) (by decide) (by decide)

theorem prime_545358713 : Nat.Prime 545358713 := by
  apply lucas_primality _ ((5 : ℕ) : ZMod 545358713)
  · exact powMod_eq_one _ 5 _ (by decide) (by decide)
  · intro q hq hdvd
    have heq : (545358713 : ℕ) - 1 = 2 ^ 3 * (41 * (59 * (28181))) := by decide
    rw [heq] at hdvd
    rcases hq.dvd_mul.mp hdvd with h | hdvd
    · rw [prime_eq_of_dvd_pow hq (by norm_num) h]
      exact powMod_ne_one _ 5 _ (by decide) (by decide) (by decide)
    rcases hq.dvd_mul.mp hdvd with h | hdvd
    · rw [prime_eq_of_dvd hq (by norm_num) h]
      exact powMod_ne_one _ 5 _ (by decide) (by decide) (by decide)
    rcases hq.dvd_mul.mp hdvd with h | hdvd
    · rw [prime_eq_of_dvd hq (by norm_num) h]
      exact powMod_ne_one _ 5 _ (by decide) (by decide) (by decide)
    · rw [prime_eq_of_dvd hq (by norm_num) hdvd]
      exact powMod_ne_one _ 5 _ (by decide) (by decide) (by decide)

theorem prime_297159362677 : Nat.Prime 297159362677 := by
  apply lucas_primality _ ((2 : ℕ) : ZMod 297159362677)
  · exact powMod_eq_one _ 2 _ (by decide) (by decide)
  · intro q hq hdvd
    have heq : (297159362677 : ℕ) - 1 = 2 ^ 2 * (3 ^ 2 * (11 * (461 * (1627771)))) := by decide
    rw [heq] at hdvd
    rcases hq.dvd_mul.mp hdvd with h | hdvd
    · rw [prime_eq_of_dvd_pow hq (by norm_num) h]
      exact powMod_ne_one _ 2 _ (by decide) (by decide) (by decide)
    rcases hq.dvd_mul.mp hdvd with h | hdvd
    · rw [prime_eq_of_dvd_pow hq (by norm_num) h]
      exact powMod_ne_one _ 2 _ (by decide) (by decide) (by decide)
    rcases hq.dvd_mul.mp hdvd with h | hdvd
    · rw [prime_eq_of_dvd hq (by norm_num) h]
      exact powMod_ne_one _ 2 _ (by decide) (by decide) (by decide)
    rcases hq.dvd_mul.mp hdvd with h | hdvd
    · rw [prime_eq_of_dvd hq (by norm_num) h]
      exact powMod_ne_one _ 2 _ (by decide) (by decide) (by decide)
    · rw [prime_eq_of_dvd hq prime_1627771 hdvd]
      exact powMod_ne_one _ 2 _ (by decide) (by decide) (by decide)

theorem prime_29047611873442575647497758179 : Nat.Prime 29047611873442575647497758179 := by
  apply lucas_primality _ ((2 : ℕ) : ZMod 29047611873442575647497758179)
  · exact powMod_eq_one _ 2 _ (by decide) (by decide)
  · intro q hq hdvd
    have heq : (29047611873442575647497758179 : ℕ) - 1 = 2 * (293 * (305873 * (545358713 * (297159362677)))) := by decide
    rw [heq] at hdvd
    rcases hq.dvd_mul.mp hdvd with h | hdvd
    · rw [prime_eq_of_dvd hq (by norm_num) h]
      exact powMod_ne_one _ 2 _ (by decide) (by decide) (by decide)
    rcases hq.dvd_mul.mp hdvd with h | hdvd
    · rw [prime_eq_of_dvd hq (by norm_num) h]
      exact powMod_ne_one _ 2 _ (by decide) (by decide) (by decide)
    rcases hq.dvd_mul.mp hdvd with h | hdvd
    · rw [prime_eq_of_dvd hq (by norm_num) h]
      exact powMod_ne_one _ 2 _ (by decide) (by decide) (by decide)
    rcases hq.dvd_mul.mp hdvd with h | hdvd
    · rw [prime_eq_of_dvd hq prime_545358713 h]
      exact powMod_ne_one _ 2 _ (by decide) (by decide) (by decide)
    · rw [prime_eq_of_dvd hq prime_297159362677 hdvd]
      exact powMod_ne_one _ 2 _ (by decide) (by decide) (by decide)

theorem prime_341948486974166000522343609283189 : Nat.Prime 341948486974166000522343609283189 := by
  apply lucas_primality _ ((2 : ℕ) : ZMod 341948486974166000522343609283189)
  · exact powMod_eq_one _ 2 _ (by decide) (by decide)
  · intro q hq hdvd
    have heq : (341948486974166000522343609283189 : ℕ) - 1 = 2 ^ 2 * (3 ^ 3 * (109 * (29047611873442575647497758179))) := by decide
    rw [heq] at hdvd
    rcases hq.dvd_mul.mp hdvd with h | hdvd
    · rw [prime_eq_of_dvd_pow hq (by norm_num) h]
      exact powMod_ne_one _ 2 _ (by decide) (by decide) (by decide)
    rcases hq.dvd_mul.mp hdvd with h | hdvd
    · rw [prime_eq_of_dvd_pow hq (by norm_num) h]
      exact powMod_ne_one _ 2 _ (by decide) (by decide) (by decide)
    rcases hq.dvd_mul.mp hdvd with h | hdvd
    · rw [prime_eq_of_dvd hq (by norm_num) h]
      exact powMod_ne_one _ 2 _ (by decide) (by decide) (by decide)
    · rw [prime_eq_of_dvd hq prime_29047611873442575647497758179 hdvd]
      exact powMod_ne_one _ 2 _ (by decide) (by decide) (by decide)

theorem prime_N : Nat.Prime N := by
  apply lucas_primality _ ((7 : ℕ) : ZMod N)
  · exact powMod_eq_one _ 7 _ (by decide) (by decide)
  · intro q hq hdvd
    have heq : (N : ℕ) - 1 = 2 ^ 6 * (3 * (149 * (631 * (107361793816595537 * (174723607534414371449 * (341948486974166000522343609283189)))))) := by decide
    rw [heq] at hdvd
    rcases hq.dvd_mul.mp hdvd with h | hdvd
    · rw [prime_eq_of_dvd_pow hq (by norm_num) h]
      exact powMod_ne_one _ 7 _ (by decide) (by decide) (by decide)
    rcases hq.dvd_mul.mp hdvd with h | hdvd
    · rw [prime_eq_of_dvd hq (by norm_num) h]
      exact powMod_ne_one _ 7 _ (by decide) (by decide) (by decide)
    rcases hq.dvd_mul.mp hdvd with h | hdvd
    · rw [prime_eq_of_dvd hq (by norm_num) h]
      exact powMod_ne_one _ 7 _ (by decide) (by decide) (by decide)
    rcases hq.dvd_mul.mp hdvd with h | hdvd
    · rw [prime_eq_of_dvd hq (by norm_num) h]
      exact powMod_ne_one _ 7 _ (by decide) (by decide) (by decide)
    rcases hq.dvd_mul.mp hdvd with h | hdvd
    · rw [prime_eq_of_dvd hq prime_107361793816595537 h]
      exact powMod_ne_one _ 7 _ (by decide) (by decide) (by decide)
    rcases hq.dvd_mul.mp hdvd with h | hdvd
    · rw [prime_eq_of_dvd hq prime_174723607534414371449 h]
      exact powMod_ne_one _ 7 _ (by decide) (by decide) (by decide)
    · rw [prime_eq_of_dvd hq prime_341948486974166000522343609283189 hdvd]
      exact powMod_ne_one _ 7 _ (by decide) (by decide) (by decide)

/-! ### The secp256k1 curve over GF(P), in Mathlib's Weierstrass form -/

/-- secp256k1 as an affine Weierstrass curve `y² = x³ + 7` over `GF(P)`. -/
def secp : WeierstrassCurve.Affine (ZMod P) :=
  { a₁ := 0, a₂ := 0, a₃ := 0, a₄ := 0, a₆ := 7 }

theorem natCast_P_ne_zero {a : ℕ} (h0 : 0 < a) (h1 : a < P) : ((a : ℕ) : ZMod P) ≠ 0 := by
  intro hc
  have hv := congrArg ZMod.val hc
  rw [ZMod.val_cast_of_lt h1, ZMod.val_zero] at hv
  omega

theorem secp_equation_iff (x y : ZMod P) : secp.Equation x y ↔ y ^ 2 = x ^ 3 + 7 := by
  rw [WeierstrassCurve.Affine.equation_iff]
  simp [secp]

theorem secp_Δ_ne_zero : secp.Δ ≠ 0 := by
  have h : secp.Δ = -((21168 : ℕ) : ZMod P) := by
    rw [WeierstrassCurve.Δ]
    simp [secp, WeierstrassCurve.b₂, WeierstrassCurve.b₄, WeierstrassCurve.b₆,
      WeierstrassCurve.b₈]
    norm_num
  rw [h, neg_ne_zero]
  exact natCast_P_ne_zero (by norm_num) (by decide)

theorem secp_nonsingular {x y : ZMod P} (h : y ^ 2 = x ^ 3 + 7) : secp.Nonsingular x y :=
  WeierstrassCurve.Affine.nonsingular_of_Δ_ne_zero secp ((secp_equation_iff x y).mpr h)
    secp_Δ_ne_zero

/-- Convert a Mathlib curve point to the Go representation: the point at
infinity is `(0, 0)` and an affine point is its pair of coordinate values. -/
def toGo : secp.Point → ℕ × ℕ
  | .zero => (0, 0)
  | @WeierstrassCurve.Affine.Point.some _ _ _ x y _ => (x.val, y.val)

theorem toGo_zero : toGo 0 = (0, 0) := rfl

theorem toGo_some {x y : ZMod P} (h : secp.Nonsingular x y) :
    toGo (.some h) = (x.val, y.val) := rfl

/-- `(0,0)` never satisfies the curve equation, so an affine point's Go
representation is never the identity encoding. -/
theorem toGo_some_ne {x y : ZMod P} (h : secp.Nonsingular x y) :
    ¬(x.val = 0 ∧ y.val = 0) := by
  rintro ⟨hx, hy⟩
  have hx0 : x = 0 := by
    have := congrArg (fun a : ℕ => ((a : ℕ) : ZMod P)) hx
    simpa [ZMod.natCast_zmod_val] using this
  have hy0 : y = 0 := by
    have := congrArg (fun a : ℕ => ((a : ℕ) : ZMod P)) hy
    simpa [ZMod.natCast_zmod_val] using this
  have heq := (secp_equation_iff x y).mp h.1
  rw [hx0, hy0] at heq
  have h7 : ((7 : ℕ) : ZMod P) = 0 := by
    have : (0 : ZMod P) ^ 2 = 0 ^ 3 + 7 := heq
    simpa using this.symm
  exact natCast_P_ne_zero (by norm_num) (by decide) h7

/-! ### Cast toolkit -/

theorem castSubP {b : ℕ} (hb : b ≤ P) : ((P - b : ℕ) : ZMod P) = -((b : ℕ) : ZMod P) := by
  rw [Nat.cast_sub hb, ZMod.natCast_self, zero_sub]

theorem castPinv (a : ℕ) : ((pinv a : ℕ) : ZMod P) = ((a : ℕ) : ZMod P)⁻¹ := by
  rw [pinv, powMod_cast P a (P - 2) (by decide)]
  by_cases h : ((a : ℕ) : ZMod P) = 0
  · rw [h, zero_pow (by decide : P - 2 ≠ 0), inv_zero]
  · have h1 : ((a : ℕ) : ZMod P) * ((a : ℕ) : ZMod P) ^ (P - 2) = 1 := by
      rw [← pow_succ']
      have : P - 2 + 1 = P - 1 := by decide
      rw [this]
      exact ZMod.pow_card_sub_one_eq_one h
    exact eq_inv_of_mul_eq_one_left ((mul_comm _ _).trans h1)

theorem val_eq_of_cast {m : ℕ} {a : ZMod P} (hm : m < P) (h : ((m : ℕ) : ZMod P) = a) :
    m = a.val := by
  have := congrArg ZMod.val h
  rwa [ZMod.val_cast_of_lt hm] at this

/-! ### Shape of the secp group-law ingredients -/

theorem secp_negY (x y : ZMod P) : secp.negY x y = -y := by
  simp [WeierstrassCurve.Affine.negY, secp]

theorem secp_addX (x₁ x₂ L : ZMod P) : secp.addX x₁ x₂ L = L ^ 2 - x₁ - x₂ := by
  simp [WeierstrassCurve.Affine.addX, secp]

theorem secp_addY (x₁ x₂ y₁ L : ZMod P) :
    secp.addY x₁ x₂ y₁ L = L * (x₁ - secp.addX x₁ x₂ L) - y₁ := by
  rw [WeierstrassCurve.Affine.addY, WeierstrassCurve.Affine.negAddY, secp_negY]
  ring

theorem secp_slope_tangent {x₁ x₂ y₁ y₂ : ZMod P} (hx : x₁ = x₂)
    (hy : y₁ ≠ secp.negY x₂ y₂) :
    secp.slope x₁ x₂ y₁ y₂ = 3 * x₁ ^ 2 * (2 * y₁)⁻¹ := by
  rw [WeierstrassCurve.Affine.slope_of_Y_ne hx hy, secp_negY]
  simp only [secp]
  rw [div_eq_mul_inv]
  ring_nf

theorem secp_slope_secant {x₁ x₂ y₁ y₂ : ZMod P} (hx : x₁ ≠ x₂) :
    secp.slope x₁ x₂ y₁ y₂ = (y₂ - y₁) * (x₂ - x₁)⁻¹ := by
  rw [WeierstrassCurve.Affine.slope_of_X_ne hx, div_eq_mul_inv]
  have h1 : x₁ - x₂ = -(x₂ - x₁) := by ring
  have h2 : y₁ - y₂ = -(y₂ - y₁) := by ring
  rw [h1, h2, inv_neg]
  ring

/-! ### Casting the Go coordinate formulas -/

theorem cast_x3 (l x1v x2v : ℕ) :
    (((l * l % P + (P - x1v % P) + (P - x2v % P)) % P : ℕ) : ZMod P)
      = ((l : ℕ) : ZMod P) ^ 2 - ((x1v : ℕ) : ZMod P) - ((x2v : ℕ) : ZMod P) := by
  rw [ZMod.natCast_mod, Nat.cast_add, Nat.cast_add, ZMod.natCast_mod, Nat.cast_mul,
    castSubP (Nat.mod_lt _ (by decide)).le, castSubP (Nat.mod_lt _ (by decide)).le,
    ZMod.natCast_mod, ZMod.natCast_mod]
  ring

theorem cast_y3 (l y1v x1v x3 : ℕ) (hx3 : x3 ≤ P) :
    (((l * ((x1v % P + (P - x3)) % P) % P + (P - y1v % P)) % P : ℕ) : ZMod P)
      = ((l : ℕ) : ZMod P) * (((x1v : ℕ) : ZMod P) - ((x3 : ℕ) : ZMod P))
        - ((y1v : ℕ) : ZMod P) := by
  rw [ZMod.natCast_mod, Nat.cast_add, ZMod.natCast_mod, Nat.cast_mul, ZMod.natCast_mod,
    Nat.cast_add, ZMod.natCast_mod, castSubP hx3, castSubP (Nat.mod_lt _ (by decide)).le,
    ZMod.natCast_mod]
  ring

theorem cast_sub2 (a b : ℕ) :
    (((a % P + (P - b % P)) % P : ℕ) : ZMod P) = ((a : ℕ) : ZMod P) - ((b : ℕ) : ZMod P) := by
  rw [ZMod.natCast_mod, Nat.cast_add, ZMod.natCast_mod,
    castSubP (Nat.mod_lt _ (by decide)).le, ZMod.natCast_mod]
  ring

theorem padd_zero_right (A : ℕ × ℕ) : padd A (0, 0) = A := by
  by_cases h : A.1 = 0 ∧ A.2 = 0
  · rw [padd, if_pos h]
    exact Prod.ext h.1.symm h.2.symm
  · rw [padd, if_neg h]
    exact if_pos ⟨rfl, rfl⟩

theorem padd_some (x1v y1v x2v y2v : ℕ) (hA : ¬(x1v = 0 ∧ y1v = 0))
    (hB : ¬(x2v = 0 ∧ y2v = 0)) :
    padd (x1v, y1v) (x2v, y2v) =
      if x1v % P = x2v % P then
        if (y1v + y2v) % P = 0 then (0, 0)
        else
          let l := 3 * x1v * x1v % P * pinv (2 * y1v % P) % P
          let x3 := (l * l % P + (P - x1v % P) + (P - x2v % P)) % P
          (x3, (l * ((x1v % P + (P - x3)) % P) % P + (P - y1v % P)) % P)
      else
        let l := (y2v % P + (P - y1v % P)) % P * pinv ((x2v % P + (P - x1v % P)) % P) % P
        let x3 := (l * l % P + (P - x1v % P) + (P - x2v % P)) % P
        (x3, (l * ((x1v % P + (P - x3)) % P) % P + (P - y1v % P)) % P) := by
  rw [padd, if_neg hA, if_neg hB]

/-- Packaging of the coordinate computation shared by the tangent and secant
branches of `padd`: once the Go slope value casts to the Weierstrass slope,
the produced pair is the `toGo` image of the added point. -/
theorem pair_cast_eq (l x1v y1v x2v : ℕ) {L x₁ x₂ y₁ : ZMod P}
    (hl : ((l : ℕ) : ZMod P) = L) (hx1 : ((x1v : ℕ) : ZMod P) = x₁)
    (hy1 : ((y1v : ℕ) : ZMod P) = y₁) (hx2 : ((x2v : ℕ) : ZMod P) = x₂) :
    (((l * l % P + (P - x1v % P) + (P - x2v % P)) % P : ℕ),
      ((l * ((x1v % P + (P - (l * l % P + (P - x1v % P) + (P - x2v % P)) % P)) % P) % P
        + (P - y1v % P)) % P : ℕ))
      = ((secp.addX x₁ x₂ L).val, (secp.addY x₁ x₂ y₁ L).val) := by
  have hx3c : (((l * l % P + (P - x1v % P) + (P - x2v % P)) % P : ℕ) : ZMod P)
      = secp.addX x₁ x₂ L := by
    rw [cast_x3, hl, hx1, hx2, secp_addX]
  have hy3c : (((l * ((x1v % P + (P - (l * l % P + (P - x1v % P) + (P - x2v % P)) % P)) % P)
      % P + (P - y1v % P)) % P : ℕ) : ZMod P) = secp.addY x₁ x₂ y₁ L := by
    rw [cast_y3 _ _ _ _ (Nat.mod_lt _ (by decide)).le, hl, hx1, hy1, hx3c, secp_addY]
  exact Prod.ext (val_eq_of_cast (Nat.mod_lt _ (by decide)) hx3c)
    (val_eq_of_cast (Nat.mod_lt _ (by decide)) hy3c)

/-- The central bridge: the Go point addition `padd` computes the Weierstrass
group law of secp256k1 through the encoding `toGo`. -/
theorem toGo_padd (A B : secp.Point) : padd (toGo A) (toGo B) = toGo (A + B) := by
  cases A with
  | zero => rw [WeierstrassCurve.Affine.Point.zero_def, toGo_zero, padd_zero_left, zero_add]
  | @some x₁ y₁ h₁ =>
    cases B with
    | zero => rw [WeierstrassCurve.Affine.Point.zero_def, toGo_zero, padd_zero_right, add_zero]
    | @some x₂ y₂ h₂ =>
      have hcx1 : ((x₁.val : ℕ) : ZMod P) = x₁ := ZMod.natCast_zmod_val x₁
      have hcy1 : ((y₁.val : ℕ) : ZMod P) = y₁ := ZMod.natCast_zmod_val y₁
      have hcx2 : ((x₂.val : ℕ) : ZMod P) = x₂ := ZMod.natCast_zmod_val x₂
      have hcy2 : ((y₂.val : ℕ) : ZMod P) = y₂ := ZMod.natCast_zmod_val y₂
      rw [toGo_some h₁, toGo_some h₂,
        padd_some _ _ _ _ (toGo_some_ne h₁) (toGo_some_ne h₂)]
      by_cases hxx : x₁ = x₂
      · have hxxv : x₁.val % P = x₂.val % P := by rw [hxx]
        rw [if_pos hxxv]
        by_cases hyy : y₁ = secp.negY x₂ y₂
        · have hsum : ((y₁.val + y₂.val : ℕ) : ZMod P) = 0 := by
            push_cast
            rw [hcy1, hcy2, hyy, secp_negY]
            ring
          have hyyv : (y₁.val + y₂.val) % P = 0 := by
            obtain ⟨c, hc⟩ := (ZMod.natCast_zmod_eq_zero_iff_dvd _ _).mp hsum
            rw [hc]
            exact Nat.mul_mod_right P c
          rw [if_pos hyyv, WeierstrassCurve.Affine.Point.add_of_Y_eq hxx hyy, toGo_zero]
        · have hyyv : ¬((y₁.val + y₂.val) % P = 0) := by
            intro hc
            apply hyy
            have hsum : ((y₁.val + y₂.val : ℕ) : ZMod P) = 0 :=
              (ZMod.natCast_zmod_eq_zero_iff_dvd _ _).mpr (Nat.dvd_of_mod_eq_zero hc)
            push_cast at hsum
            rw [hcy1, hcy2] at hsum
            rw [secp_negY]
            exact eq_neg_of_add_eq_zero_left hsum
          rw [if_neg hyyv,
            WeierstrassCurve.Affine.Point.add_of_imp (fun _ => hyy), toGo_some]
          have hl : ((3 * x₁.val * x₁.val % P * pinv (2 * y₁.val % P) % P : ℕ) : ZMod P)
              = secp.slope x₁ x₂ y₁ y₂ := by
            rw [ZMod.natCast_mod, Nat.cast_mul, ZMod.natCast_mod, castPinv, ZMod.natCast_mod]
            push_cast
            rw [hcx1, hcy1, secp_slope_tangent hxx hyy]
            ring
          exact pair_cast_eq _ _ _ _ hl hcx1 hcy1 hcx2
      · have hxxv : ¬(x₁.val % P = x₂.val % P) := by
          intro hc
          apply hxx
          rw [Nat.mod_eq_of_lt (ZMod.val_lt x₁), Nat.mod_eq_of_lt (ZMod.val_lt x₂)] at hc
          rw [← hcx1, ← hcx2, hc]
        rw [if_neg hxxv, WeierstrassCurve.Affine.Point.add_of_X_ne hxx, toGo_some]
        have hl : (((y₂.val % P + (P - y₁.val % P)) % P
            * pinv ((x₂.val % P + (P - x₁.val % P)) % P) % P : ℕ) : ZMod P)
            = secp.slope x₁ x₂ y₁ y₂ := by
          rw [ZMod.natCast_mod, Nat.cast_mul, castPinv, cast_sub2, cast_sub2,
            hcx1, hcy1, hcx2, hcy2, secp_slope_secant hxx]
        exact pair_cast_eq _ _ _ _ hl hcx1 hcy1 hcx2

theorem nsmul_double (m : ℕ) (Q : secp.Point) : m • (Q + Q) = (2 * m) • Q := by
  rw [← two_nsmul, smul_smul, mul_comm]

/-- The double-and-add loop computes scalar multiplication in the group. -/
theorem smulAux_toGo : ∀ (fuel k : ℕ) (Q R : secp.Point), k < 2 ^ fuel →
    smulAux fuel k (toGo Q) (toGo R) = toGo (k • Q + R) := by
  intro fuel
  induction fuel with
  | zero =>
    intro k Q R hk
    have hk0 : k = 0 := by
      have : k < 1 := by simpa using hk
      omega
    rw [smulAux, hk0, zero_nsmul, zero_add]
  | succ f ih =>
    intro k Q R hk
    rw [smulAux]
    by_cases hk0 : k = 0
    · rw [if_pos hk0, hk0, zero_nsmul, zero_add]
    · rw [if_neg hk0]
      have hk2 : k / 2 < 2 ^ f := by
        have : (2 : ℕ) ^ (f + 1) = 2 * 2 ^ f := by rw [pow_succ]; ring
        omega
      by_cases hpar : k % 2 = 1
      · rw [if_pos hpar, toGo_padd Q Q, toGo_padd R Q, ih (k / 2) (Q + Q) (R + Q) hk2]
        congr 1
        rw [nsmul_double, add_comm R Q, ← add_assoc, ← succ_nsmul,
          show 2 * (k / 2) + 1 = k from by omega]
      · rw [if_neg hpar, toGo_padd Q Q, ih (k / 2) (Q + Q) R hk2]
        congr 2
        rw [nsmul_double, show 2 * (k / 2) = k from by omega]

/-- The Go scalar multiplication computes the group-theoretic one. -/
theorem toGo_smul (k : ℕ) (Q : secp.Point) (hk : k < 2 ^ 257) :
    smul k (toGo Q) = toGo (k • Q) := by
  have h := smulAux_toGo 257 k Q 0 hk
  rw [toGo_zero, add_zero] at h
  exact h

theorem toGo_eq_zero {Q : secp.Point} (h : toGo Q = (0, 0)) : Q = 0 := by
  cases Q with
  | zero => rfl
  | @some x y hns =>
    exact absurd ⟨congrArg Prod.fst h, congrArg Prod.snd h⟩ (toGo_some_ne hns)

/-! ### The base point and its order -/

theorem gOnCurve : ((Gy : ℕ) : ZMod P) ^ 2 = ((Gx : ℕ) : ZMod P) ^ 3 + 7 := by
  have h : (Gy * Gy) % P = (Gx * Gx * Gx + 7) % P := by decide
  have hc := congrArg (fun a : ℕ => ((a : ℕ) : ZMod P)) h
  simp only [ZMod.natCast_mod] at hc
  push_cast at hc
  calc ((Gy : ℕ) : ZMod P) ^ 2 = ((Gy : ℕ) : ZMod P) * ((Gy : ℕ) : ZMod P) := sq _
    _ = ((Gx : ℕ) : ZMod P) * ((Gx : ℕ) : ZMod P) * ((Gx : ℕ) : ZMod P) + 7 := hc
    _ = ((Gx : ℕ) : ZMod P) ^ 3 + 7 := by ring

theorem gNonsingular : secp.Nonsingular ((Gx : ℕ) : ZMod P) ((Gy : ℕ) : ZMod P) :=
  secp_nonsingular gOnCurve

/-- The secp256k1 base point as a Weierstrass curve point. -/
def gP : secp.Point := .some gNonsingular

theorem toGo_gP : toGo gP = (Gx, Gy) := by
  rw [gP, toGo_some, ZMod.val_cast_of_lt (by decide), ZMod.val_cast_of_lt (by decide)]

theorem smul_N_G : smul N (Gx, Gy) = (0, 0) := by decide

theorem N_nsmul_gP : N • gP = 0 := by
  apply toGo_eq_zero
  rw [← toGo_smul N gP (by decide), toGo_gP, smul_N_G]

theorem gP_ne_zero : gP ≠ 0 := WeierstrassCurve.Affine.Point.some_ne_zero _

theorem addOrderOf_gP : addOrderOf gP = N := by
  have h1 : addOrderOf gP ∣ N := addOrderOf_dvd_of_nsmul_eq_zero N_nsmul_gP
  rcases (Nat.Prime.eq_one_or_self_of_dvd prime_N _ h1) with h | h
  · exact absurd (AddMonoid.addOrderOf_eq_one_iff.mp h) gP_ne_zero
  · exact h

theorem nsmul_gP_eq_zero_iff (k : ℕ) : k • gP = 0 ↔ N ∣ k := by
  rw [← addOrderOf_gP]
  exact addOrderOf_dvd_iff_nsmul_eq_zero.symm

theorem nsmul_gP_ne_zero {k : ℕ} (h0 : 0 < k) (hN : k < N) : k • gP ≠ 0 := by
  intro hz
  have hdvd := (nsmul_gP_eq_zero_iff k).mp hz
  exact absurd (Nat.le_of_dvd h0 hdvd) (by omega)

theorem mod_nsmul_gP (k : ℕ) : (k % N) • gP = k • gP := by
  conv_rhs => rw [← Nat.div_add_mod k N]
  rw [add_nsmul, mul_comm, ← smul_smul, N_nsmul_gP, nsmul_zero, zero_add]

/-! ### No two-torsion: the curve has no point with `y = 0` -/

theorem y_ne_zero {x y : ZMod P} (h : secp.Nonsingular x y) : y ≠ 0 := by
  intro hy
  have heq := (secp_equation_iff x y).mp h.1
  rw [hy] at heq
  have hx3 : x ^ 3 = -(((7 : ℕ) : ZMod P)) := by
    push_cast
    linear_combination -heq
  have hx0 : x ≠ 0 := by
    intro h0
    rw [h0] at hx3
    have h7 : ((7 : ℕ) : ZMod P) = 0 := by linear_combination hx3
    exact natCast_P_ne_zero (by norm_num) (by decide) h7
  have hE : 3 * ((P - 1) / 3) = P - 1 := by decide
  have h1 : x ^ (P - 1) = 1 := ZMod.pow_card_sub_one_eq_one hx0
  have h2 : ((P - 7 : ℕ) : ZMod P) ^ ((P - 1) / 3) = 1 := by
    rw [castSubP (by decide), ← hx3, ← pow_mul, hE, h1]
  exact powMod_ne_one P (P - 7) ((P - 1) / 3) (by decide) (by decide) (by decide) h2

/-- `toGo` of a negated affine point: same x, y replaced by `P - y`. -/
theorem toGo_neg {x y : ZMod P} (h : secp.Nonsingular x y) :
    toGo (-WeierstrassCurve.Affine.Point.some h) = (x.val, P - y.val) := by
  rw [WeierstrassCurve.Affine.Point.neg_some, toGo_some]
  have hyv : (secp.negY x y).val = P - y.val := by
    rw [secp_negY, ZMod.neg_val, if_neg (y_ne_zero h)]
  rw [hyv]

/-! ### The Jacobi symbol of the negated y-coordinate -/

theorem jacobi_flip {y : ℕ} (h0 : 0 < y) (hlt : y < P)
    (hj : jacobiSym (y : ℤ) P ≠ 1) : jacobiSym ((P - y : ℕ) : ℤ) P = 1 := by
  have hcop : Int.gcd (y : ℤ) P = 1 := by
    have hnd : ¬(P ∣ y) := fun hdvd => absurd (Nat.le_of_dvd h0 hdvd) (by omega)
    have := (Nat.Prime.coprime_iff_not_dvd prime_P).mpr hnd
    simpa [Int.gcd_natCast_natCast] using this.symm
  have hneg1 : jacobiSym (y : ℤ) P = -1 :=
    (jacobiSym.eq_one_or_neg_one hcop).resolve_left hj
  have hmod : ((P - y : ℕ) : ℤ) % (P : ℕ) = (-1 * (y : ℤ)) % (P : ℕ) := by
    have hdvd : ((P : ℕ) : ℤ) ∣ (-1 * (y : ℤ) - ((P - y : ℕ) : ℤ)) := by
      refine ⟨-1, ?_⟩
      push_cast [hlt.le]
      ring
    exact (Int.modEq_iff_dvd.mpr hdvd).symm.symm
  rw [jacobiSym.mod_left' hmod, jacobiSym.mul_left, jacobiSym.at_neg_one
    (Nat.odd_iff.mpr (by decide)), ZMod.χ₄_nat_three_mod_four (by decide), hneg1]
  norm_num

/-- The Go on-curve check accepts the coordinates of every nonsingular
point of the Weierstrass model. -/
theorem IsOnCurve_toGo {x y : ZMod P} (h : secp.Nonsingular x y) :
    IsOnCurve x.val y.val = true := by
  have heq := (secp_equation_iff x y).mp h.1
  rw [IsOnCurve]
  apply beq_iff_eq.mpr
  apply val_inj_of_lt (Nat.mod_lt _ P_pos) (Nat.mod_lt _ P_pos)
  rw [ZMod.natCast_mod, ZMod.natCast_mod, Nat.cast_mul, Nat.cast_add, Nat.cast_mul,
    Nat.cast_mul, ZMod.natCast_zmod_val, ZMod.natCast_zmod_val, Nat.cast_ofNat]
  linear_combination heq

/-- Pair form of the negation bridge, as it appears inside `Verify`. -/
theorem toGo_neg' {x y : ZMod P} (h : secp.Nonsingular x y) :
    ((toGo (.some h)).1, P - (toGo (.some h)).2) = toGo (-.some h) := by
  rw [toGo_some, toGo_neg]

theorem jacobi_flip' {y : ℕ} (h0 : 0 < y) (hlt : y < P) (hj : jacobi y P ≠ 1) :
    jacobi (P - y) P = 1 :=
  jacobi_flip h0 hlt hj

/-- Evaluation of `Sign` on an in-range key whose nonce derivation
succeeds. -/
theorem Sign_eq (d : ℕ) (m : List Nat) {k0 : ℕ} (hd1 : 1 ≤ d) (hd2 : d ≤ N - 1)
    (hk0 : getDeterministicK (GetBigIntBytesImmutable d) m = some k0) :
    Sign d m = .ok
      (GetBigIntBytesImmutable (ScalarBaseMult (GetBigIntBytesImmutable k0)).1 ++
        GetBigIntBytesImmutable
          ((getK (ScalarBaseMult (GetBigIntBytesImmutable k0)).2 k0 +
            getE (ScalarBaseMult (GetBigIntBytesImmutable d)).1
              (ScalarBaseMult (GetBigIntBytesImmutable d)).2
              (GetBigIntBytesImmutable (ScalarBaseMult (GetBigIntBytesImmutable k0)).1) m
            * d) % N)) := by
  have hN : 0 < N := N_pos
  rw [Sign, if_neg (by omega : ¬(d < 1 ∨ N - 1 < d))]
  simp only [hk0]

/-- Sign-then-verify correctness, conditional on a nonzero challenge: for
every in-range private key whose deterministic nonce derivation succeeds,
if the challenge `e = H(Rx ‖ compress(pub) ‖ m) mod N` is nonzero, then
`Verify` accepts the signature produced by `Sign` under the compressed
public key.  (When `e = 0`, the code negates the identity encoding `(0,0)`
into `(0,P)`, which `padd` does not recognise, so this hypothesis cannot
be dropped.) -/
theorem verify_sign (d k0 : ℕ) (m sig : List Nat)
    (hd1 : 1 ≤ d) (hd2 : d ≤ N - 1)
    (hk0 : getDeterministicK (GetBigIntBytesImmutable d) m = some k0)
    (he : getE (ScalarBaseMult (GetBigIntBytesImmutable d)).1
        (ScalarBaseMult (GetBigIntBytesImmutable d)).2
        (GetBigIntBytesImmutable (ScalarBaseMult (GetBigIntBytesImmutable k0)).1) m ≠ 0)
    (hsig : Sign d m = .ok sig) :
    Verify (Marshal (ScalarBaseMult (GetBigIntBytesImmutable d)).1
        (ScalarBaseMult (GetBigIntBytesImmutable d)).2) m sig = .ok () := by
  have hNpos : 0 < N := N_pos
  have hdN : d < N := by omega
  have hd256 : d < 2 ^ 256 := lt_trans hdN N_lt_2pow256
  have hk0pos : 0 < k0 := by
    rw [getDeterministicK] at hk0
    split_ifs at hk0 with h0
    have := Option.some.inj hk0
    omega
  have hk0N : k0 < N := by
    rw [getDeterministicK_some hk0]
    exact Nat.mod_lt _ hNpos
  have hk0256 : k0 < 2 ^ 256 := lt_trans hk0N N_lt_2pow256
  rw [Sign_eq d m hd1 hd2 hk0] at hsig
  have hsg : sig = _ := (Except.ok.inj hsig).symm
  subst hsg
  have hPubD : ScalarBaseMult (GetBigIntBytesImmutable d) = toGo (d • gP) := by
    rw [ScalarBaseMult_GetBig hd256, ← toGo_gP,
      toGo_smul d gP (lt_trans hd256 (by norm_num))]
  have hRkD : ScalarBaseMult (GetBigIntBytesImmutable k0) = toGo (k0 • gP) := by
    rw [ScalarBaseMult_GetBig hk0256, ← toGo_gP,
      toGo_smul k0 gP (lt_trans hk0256 (by norm_num))]
  have hDne : d • gP ≠ 0 := nsmul_gP_ne_zero (by omega) hdN
  have hRne : k0 • gP ≠ 0 := nsmul_gP_ne_zero hk0pos hk0N
  cases hD : d • gP with
  | zero => exact absurd (hD.trans WeierstrassCurve.Affine.Point.zero_def) hDne
  | @some xD yD hDns =>
    cases hR : k0 • gP with
    | zero => exact absurd (hR.trans WeierstrassCurve.Affine.Point.zero_def) hRne
    | @some xR yR hRns =>
      have hPub : ScalarBaseMult (GetBigIntBytesImmutable d) = (xD.val, yD.val) := by
        rw [hPubD, hD, toGo_some]
      have hRgo : ScalarBaseMult (GetBigIntBytesImmutable k0) = (xR.val, yR.val) := by
        rw [hRkD, hR, toGo_some]
      simp only [hPub, hRgo] at he ⊢
      have hxRP : xR.val < P := ZMod.val_lt xR
      have hcurve : IsOnCurve xD.val yD.val = true := IsOnCurve_toGo hDns
      have hU : Unmarshal (Marshal xD.val yD.val) = .ok xD.val yD.val :=
        unmarshal_roundtrip _ _ (ZMod.val_lt xD) (ZMod.val_lt yD) hcurve
      rw [Verify, hU]
      simp only [hcurve, Bool.not_true, Bool.false_eq_true, if_false]
      have hGBr : GetBigIntBytesImmutable xR.val = toBytesBE 32 xR.val :=
        GetBigIntBytesImmutable_eq (lt_trans hxRP P_lt_2pow256)
      rw [hGBr] at he ⊢
      have hsvN : (getK yR.val k0 +
          getE xD.val yD.val (toBytesBE 32 xR.val) m * d) % N < N :=
        Nat.mod_lt _ hNpos
      have hGBs : GetBigIntBytesImmutable ((getK yR.val k0 +
          getE xD.val yD.val (toBytesBE 32 xR.val) m * d) % N) =
          toBytesBE 32 ((getK yR.val k0 +
            getE xD.val yD.val (toBytesBE 32 xR.val) m * d) % N) :=
        GetBigIntBytesImmutable_eq (lt_trans hsvN N_lt_2pow256)
      rw [hGBs]
      have htake : fromBytesBE ((toBytesBE 32 xR.val ++ toBytesBE 32 ((getK yR.val k0 +
          getE xD.val yD.val (toBytesBE 32 xR.val) m * d) % N)).take 32) = xR.val := by
        rw [List.take_left' (toBytesBE_length 32 xR.val),
          fromBytesBE_toBytesBE_of_lt
            (by rw [pow256_32]; exact lt_trans hxRP P_lt_2pow256)]
      have hdrop : fromBytesBE ((toBytesBE 32 xR.val ++ toBytesBE 32 ((getK yR.val k0 +
          getE xD.val yD.val (toBytesBE 32 xR.val) m * d) % N)).drop 32) =
          (getK yR.val k0 + getE xD.val yD.val (toBytesBE 32 xR.val) m * d) % N := by
        rw [List.drop_left' (toBytesBE_length 32 xR.val),
          fromBytesBE_toBytesBE_of_lt
            (by rw [pow256_32]; exact lt_trans hsvN N_lt_2pow256)]
      rw [htake, hdrop, if_neg (by omega : ¬(P ≤ xR.val)),
        if_neg (by omega :
          ¬(N ≤ (getK yR.val k0 +
            getE xD.val yD.val (toBytesBE 32 xR.val) m * d) % N)), hGBr]
      have heN : getE xD.val yD.val (toBytesBE 32 xR.val) m < N := by
        rw [getE]
        exact Nat.mod_lt _ hNpos
      have he256 : getE xD.val yD.val (toBytesBE 32 xR.val) m < 2 ^ 256 :=
        lt_trans heN N_lt_2pow256
      have hsgv : ScalarBaseMult (GetBigIntBytesImmutable ((getK yR.val k0 +
          getE xD.val yD.val (toBytesBE 32 xR.val) m * d) % N)) =
          toGo (((getK yR.val k0 +
            getE xD.val yD.val (toBytesBE 32 xR.val) m * d) % N) • gP) := by
        rw [ScalarBaseMult_GetBig (lt_trans hsvN N_lt_2pow256), ← toGo_gP,
          toGo_smul _ gP (lt_trans (lt_trans hsvN N_lt_2pow256) (by norm_num))]
      have hepv : ScalarMult xD.val yD.val (GetBigIntBytesImmutable
          (getE xD.val yD.val (toBytesBE 32 xR.val) m)) =
          toGo (getE xD.val yD.val (toBytesBE 32 xR.val) m • (d • gP)) := by
        rw [ScalarMult_GetBig xD.val yD.val he256,
          show ((xD.val, yD.val) : ℕ × ℕ) = toGo (d • gP) from by rw [hD, toGo_some],
          toGo_smul _ (d • gP) (lt_trans he256 (by norm_num))]
      rw [hsgv, hepv]
      have hsmulE : getE xD.val yD.val (toBytesBE 32 xR.val) m • d • gP =
          (getE xD.val yD.val (toBytesBE 32 xR.val) m * d) • gP :=
        smul_smul _ d gP
      have hEPne : (getE xD.val yD.val (toBytesBE 32 xR.val) m * d) • gP ≠ 0 := by
        intro hz
        rcases (Nat.Prime.dvd_mul prime_N).mp ((nsmul_gP_eq_zero_iff _).mp hz) with h | h
        · exact absurd (Nat.le_of_dvd (by omega) h) (by omega)
        · exact absurd (Nat.le_of_dvd (by omega) h) (by omega)
      cases hEP : (getE xD.val yD.val (toBytesBE 32 xR.val) m * d) • gP with
      | zero => exact absurd (hEP.trans WeierstrassCurve.Affine.Point.zero_def) hEPne
      | @some xE yE hEns =>
        rw [hsmulE, hEP, toGo_neg' hEns, toGo_padd, ← hEP]
        have hkey : ((getK yR.val k0 +
            getE xD.val yD.val (toBytesBE 32 xR.val) m * d) % N) • gP +
            -((getE xD.val yD.val (toBytesBE 32 xR.val) m * d) • gP) =
            getK yR.val k0 • gP := by
          rw [mod_nsmul_gP, add_nsmul, add_neg_cancel_right]
        rw [hkey]
        by_cases hjac : jacobi yR.val P = 1
        · rw [getK, if_pos hjac, hR, toGo_some]
          split_ifs with h1 h2 h3
          · exact absurd h1 (toGo_some_ne hRns)
          · exact absurd hjac h2
          · exact absurd rfl h3
          · rfl
        · rw [getK, if_neg hjac]
          have hNk : (N - k0) • gP = -(k0 • gP) := by
            apply eq_neg_of_add_eq_zero_left
            rw [← add_nsmul, show N - k0 + k0 = N from by omega, N_nsmul_gP]
          rw [hNk, hR, toGo_neg hRns]
          have hyR0 : yR.val ≠ 0 := by
            intro hz
            apply y_ne_zero hRns
            have := congrArg (fun a : ℕ => ((a : ℕ) : ZMod P)) hz
            simpa [ZMod.natCast_zmod_val] using this
          have hjflip : jacobi (P - yR.val) P = 1 :=
            jacobi_flip' (Nat.pos_of_ne_zero hyR0) (ZMod.val_lt yR) hjac
          split_ifs with h1 h2 h3
          · have h12 : P - yR.val = 0 := h1.2
            have := ZMod.val_lt yR
            omega
          · exact absurd hjflip h2
          · exact absurd rfl h3
          · rfl

end Schnorr
